import Mathlib

set_option maxRecDepth 20000

/-! Shallow embedding of the ogni-scan resume-intake backend core
(text chunking, field extraction, years-of-experience computation and the
processing orchestrator), modelled over `List Char`.  Strings are Python
strings restricted to their character sequences; Python `str.strip`,
`str.split`, `re` searches and the arithmetic are translated directly from
`src/backend/services/openai_service.py`,
`src/backend/services/simple_resume_parser.py` and
`src/backend/api/resumes.py`. -/

/-- Python whitespace for `str.strip` / `\s` (ASCII model). -/
def isPySpace (c : Char) : Bool :=
  c = ' ' || c = '\t' || c = '\n' || c = '\x0d' || c = '\x0b' || c = '\x0c'

/-- Sentence-terminal punctuation of the chunker's `re.split` class `[.!?]+`. -/
def isSentPunct (c : Char) : Bool :=
  c = '.' || c = '!' || c = '?'

/-- Python `str.lstrip()` (whitespace on the left). -/
def pyLStrip (cs : List Char) : List Char := cs.dropWhile isPySpace

/-- Python `str.rstrip()` (whitespace on the right). -/
def pyRStrip (cs : List Char) : List Char :=
  (cs.reverse.dropWhile isPySpace).reverse

/-- Python `str.strip()`. -/
def pyStrip (cs : List Char) : List Char := pyLStrip (pyRStrip cs)

/-- Python `str.lower()` (ASCII model). -/
def lowerL (cs : List Char) : List Char := cs.map Char.toLower

/-- The non-whitespace character content of a string, used to state
"equal up to whitespace changes". -/
def nonWs (cs : List Char) : List Char := cs.filter (fun c => !isPySpace c)

/-- Python `text.split('\n\n')`: split on the exact two-character
separator, leftmost, non-overlapping. -/
def splitNN : List Char → List (List Char)
  | [] => [[]]
  | [c] => [[c]]
  | c1 :: c2 :: rest =>
    if c1 = '\n' ∧ c2 = '\n' then [] :: splitNN rest
    else
      match splitNN (c2 :: rest) with
      | [] => [[c1]]
      | h :: t => (c1 :: h) :: t

/-- Re-join the pieces of `splitNN` with the `"\n\n"` separator. -/
def joinNN : List (List Char) → List Char
  | [] => []
  | [p] => p
  | p :: ps => p ++ '\n' :: '\n' :: joinNN ps

/-- Python `text.split('\n')`. -/
def splitNL : List Char → List (List Char)
  | [] => [[]]
  | c :: rest =>
    if c = '\n' then [] :: splitNL rest
    else
      match splitNL rest with
      | [] => [[c]]
      | h :: t => (c :: h) :: t

/-- Worker for `re.split(r'[.!?]+', s)`.  The flag records whether the
scanner is inside a punctuation run whose split point was already emitted. -/
def spGo : Bool → List Char → List (List Char)
  | _, [] => [[]]
  | skipping, c :: rest =>
    if isSentPunct c then
      if skipping then spGo true rest
      else [] :: spGo true rest
    else
      match spGo false rest with
      | [] => [[c]]
      | h :: t => (c :: h) :: t

/-- Python `re.split(r'[.!?]+', s)`: split on maximal nonempty runs of
sentence punctuation. -/
def splitPunct (cs : List Char) : List (List Char) := spGo false cs

/-- The `OpenAIService.chunk_size` (`openai_service.py`, line 18). -/
def chunkSize : Nat := 800

/-- Paragraph pass of `OpenAIService.chunk_text` (lines 244-256): greedy
accumulation of paragraphs into `current_chunk`, flushing the stripped
buffer when the next paragraph does not fit. -/
def paraPass : List (List Char) → List (List Char) → List Char → List (List Char)
  | [], chunks, current =>
    if current = [] then chunks else chunks ++ [pyStrip current]
  | p :: ps, chunks, current =>
    if current.length + p.length ≤ chunkSize then
      paraPass ps chunks (current ++ p ++ ['\n', '\n'])
    else
      paraPass ps (if current = [] then chunks else chunks ++ [pyStrip current])
        (p ++ ['\n', '\n'])

/-- Sentence pass of `OpenAIService.chunk_text` (lines 267-277): greedy
accumulation of the pieces of `re.split(r'[.!?]+', chunk)`, re-appending
`". "` to every piece. -/
def sentPass : List (List Char) → List (List Char) → List Char → List (List Char)
  | [], acc, csc =>
    if csc = [] then acc else acc ++ [pyStrip csc]
  | s :: ss, acc, csc =>
    if csc.length + s.length ≤ chunkSize then
      sentPass ss acc (csc ++ s ++ ['.', ' '])
    else
      sentPass ss (if csc = [] then acc else acc ++ [pyStrip csc]) (s ++ ['.', ' '])

/-- Second phase of `chunk_text` (lines 261-277): chunks of size at most
`chunk_size` pass through, larger chunks are re-split by sentences. -/
def splitLarge : List (List Char) → List (List Char)
  | [] => []
  | c :: rest =>
    (if c.length ≤ chunkSize then [c] else sentPass (splitPunct c) [] []) ++
      splitLarge rest

/-- The `OpenAIService.chunk_text` (`openai_service.py`, lines 236-283). -/
def chunkText (text : List Char) : List (List Char) :=
  splitLarge (paraPass (splitNN text) [] [])

/-! ### Digit runs and years of experience
(`simple_resume_parser.py`, lines 306-329) -/

/-- Match exactly `n` digits (`[0-9]{n}`), returning them and the rest. -/
def takeDigits : Nat → List Char → Option (List Char × List Char)
  | 0, cs => some ([], cs)
  | _ + 1, [] => none
  | n + 1, c :: cs =>
    if c.isDigit then (takeDigits n cs).map (fun p => (c :: p.1, p.2)) else none

/-- Python `re.search(r'\d{4}', s)`: the first run of 4 consecutive digits. -/
def run4 : List Char → Option (List Char)
  | [] => none
  | c :: rest =>
    match takeDigits 4 (c :: rest) with
    | some (ds, _) => some ds
    | none => run4 rest

/-- Numeric value of a digit string (Python `int`). -/
def natOfDigits (ds : List Char) : Nat :=
  ds.foldl (fun a c => 10 * a + (c.toNat - '0'.toNat)) 0

/-- One extracted experience entry (the dicts built at
`simple_resume_parser.py`, lines 247-253). -/
structure ExpEntry where
  role : List Char
  company : List Char
  startYear : List Char
  endYear : List Char
  period : List Char
deriving DecidableEq, Repr

/-- The fixed reference year `current_year = 2024` of
`_calculate_years_experience` (line 309). -/
def yearsRef : Nat := 2024

/-- The `start_year` as parsed at lines 316: value of the first 4-digit run of
the start token, `0` when there is none. -/
def expStartInt (e : ExpEntry) : Int :=
  match run4 e.startYear with
  | some ds => (natOfDigits ds : Int)
  | none => 0

/-- The `end_year` as parsed at lines 318-322: the reference year for
"present"/"current" (case-insensitive), else the first 4-digit run of the
end token, defaulting to the reference year. -/
def expEndInt (e : ExpEntry) : Int :=
  if lowerL e.endYear = ("present").data ∨ lowerL e.endYear = ("current").data then
    (yearsRef : Int)
  else
    match run4 e.endYear with
    | some ds => (natOfDigits ds : Int)
    | none => (yearsRef : Int)

/-- The accumulation loop of `_calculate_years_experience` (lines 311-327):
entries with `start_year > 0` contribute `max(0, end_year - start_year)`. -/
def calcYearsGo (total : Int) : List ExpEntry → Int
  | [] => total
  | e :: es =>
    if expStartInt e > 0 then
      calcYearsGo (total + max 0 (expEndInt e - expStartInt e)) es
    else
      calcYearsGo total es

/-- The `SimpleResumeParser._calculate_years_experience` (lines 306-329).  The
Python result is `float(total_years)` with `total_years` an integer; it is
modelled by that integer. -/
def calculateYearsExperience (es : List ExpEntry) : Int := calcYearsGo 0 es

/-- Per-entry contribution as the claim words it: an entry is skipped only
when its start token has no 4-digit run. -/
def claimYearsContrib (e : ExpEntry) : Int :=
  match run4 e.startYear with
  | none => 0
  | some ds => max 0 (expEndInt e - (natOfDigits ds : Int))

/-- Years of experience as the claim words it: the plain sum of the
per-entry contributions. -/
def claimYears (es : List ExpEntry) : Int := (es.map claimYearsContrib).sum

/-- Per-entry contribution as the code computes it: additionally skipped
when the first 4-digit run of the start token has value `0`. -/
def codeYearsContrib (e : ExpEntry) : Int :=
  if expStartInt e > 0 then max 0 (expEndInt e - expStartInt e) else 0

/-! ### Name extraction (`simple_resume_parser.py`, lines 129-142) -/

/-- Number of whitespace-separated tokens, Python `len(s.split())`.  The
flag records whether the scanner is inside a token. -/
def tokGo : Bool → List Char → Nat
  | _, [] => 0
  | inTok, c :: rest =>
    if isPySpace c then tokGo false rest
    else (if inTok then 0 else 1) + tokGo true rest

/-- Python `len(s.split())`. -/
def tokCount (cs : List Char) : Nat := tokGo false cs

/-- Does `pat` begin `s`? -/
def matchHead : List Char → List Char → Bool
  | [], _ => true
  | _ :: _, [] => false
  | p :: ps, c :: cs => p = c && matchHead ps cs

/-- Python substring containment `pat in s`. -/
def containsSeq : List Char → List Char → Bool
  | pat, [] => pat.isEmpty
  | pat, c :: rest => matchHead pat (c :: rest) || containsSeq pat rest

/-- The `non_name_words` list (line 136). -/
def nonNameWords : List (List Char) :=
  [("resume").data, ("cv").data, ("experience").data, ("skills").data,
   ("education").data, ("phone").data, ("email").data, ("@").data]

/-- Python `re.search(r'[a-zA-Z]', s)` viewed as a test (line 139). -/
def hasAsciiLetter (cs : List Char) : Bool :=
  cs.any (fun c => ('a' ≤ c && c ≤ 'z') || ('A' ≤ c && c ≤ 'Z'))

/-- The acceptance test of `_extract_name` on an already-stripped line
(lines 134-139): nonempty, at most 4 tokens, length over 2, no banned
substring case-insensitively, and at least one ASCII letter. -/
def nameOk (l : List Char) : Bool :=
  !l.isEmpty && decide (tokCount l ≤ 4) && decide (2 < l.length) &&
    !(nonNameWords.any (fun w => containsSeq (lowerL w) (lowerL l))) &&
    hasAsciiLetter l

/-- The scanning loop of `_extract_name`: first line whose stripped form
is accepted. -/
def extractNameGo : List (List Char) → Option (List Char)
  | [] => none
  | line :: rest =>
    let s := pyStrip line
    if nameOk s then some s else extractNameGo rest

/-- The `SimpleResumeParser._extract_name` (lines 129-142): the loop runs over
`lines[:10]`, the first 10 lines of the text. -/
def extractName (text : List Char) : Option (List Char) :=
  extractNameGo ((splitNL text).take 10)

/-- Name extraction as the claim words it: the scan covers the first 10
non-empty lines. -/
def claimExtractName (text : List Char) : Option (List Char) :=
  extractNameGo (((splitNL text).filter (fun l => !l.isEmpty)).take 10)

/-- The claim's acceptance conditions on a stripped line: 1-4
whitespace-separated tokens, length over 2, at least one ASCII letter, and
no banned substring case-insensitively. -/
def claimNamePred (l : List Char) : Bool :=
  decide (1 ≤ tokCount l) && decide (tokCount l ≤ 4) && decide (2 < l.length) &&
    hasAsciiLetter l &&
    !(nonNameWords.any (fun w => containsSeq (lowerL w) (lowerL l)))

/-! ### Experience extraction (`simple_resume_parser.py`, lines 209-255)

The three `experience_patterns` regexes are embedded as backtracking
matchers; `re.search` scans start positions left to right. -/

/-- Case-insensitive literal match (the effect of `re.IGNORECASE` on the
literals `present`/`current`), returning the original consumed characters
and the rest. -/
def ciMatchHead : List Char → List Char → Option (List Char × List Char)
  | [], cs => some ([], cs)
  | _ :: _, [] => none
  | p :: ps, c :: cs =>
    if c.toLower = p.toLower then
      (ciMatchHead ps cs).map (fun q => (c :: q.1, q.2))
    else none

/-- The dash class `[-–]` (hyphen or en-dash). -/
def isDashChar (c : Char) : Bool := c = '-' || c = '–'

/-- The `\s*` (greedy; nothing after it in these patterns can be whitespace,
so no backtracking arises). -/
def dropWs (cs : List Char) : List Char := cs.dropWhile isPySpace

/-- Generic `re.search` position scan: try the matcher at every start
position, leftmost first. -/
def searchWith (m : List Char → Option α) : List Char → Option α
  | [] => m []
  | c :: rest => m (c :: rest) <|> searchWith m rest

/-- The group alternation `(\d{4}|present|current)` of pattern 1. -/
def expAlt1 (cs : List Char) : Option (List Char) :=
  match takeDigits 4 cs with
  | some (ds, _) => some ds
  | none =>
    match ciMatchHead (("present").data) cs with
    | some (g, _) => some g
    | none =>
      match ciMatchHead (("current").data) cs with
      | some (g, _) => some g
      | none => none

/-- The group alternation `(present|current)` of pattern 2. -/
def expAlt2 (cs : List Char) : Option (List Char) :=
  match ciMatchHead (("present").data) cs with
  | some (g, _) => some g
  | none =>
    match ciMatchHead (("current").data) cs with
    | some (g, _) => some g
    | none => none

/-- The `\d{1,2}/\d{4}` with its greedy two-then-one digit backtracking. -/
def mmyy (cs : List Char) : Option (List Char × List Char) :=
  (match cs with
   | a :: b :: '/' :: rest =>
     if a.isDigit && b.isDigit then
       (takeDigits 4 rest).map (fun p => (a :: b :: '/' :: p.1, p.2))
     else none
   | _ => none) <|>
  (match cs with
   | a :: '/' :: rest =>
     if a.isDigit then (takeDigits 4 rest).map (fun p => (a :: '/' :: p.1, p.2))
     else none
   | _ => none)

/-- The group alternation `(\d{1,2}/\d{4}|present|current)` of pattern 3. -/
def expAlt3 (cs : List Char) : Option (List Char) :=
  match mmyy cs with
  | some (g, _) => some g
  | none => expAlt2 cs

/-- Pattern `(\d{4})\s*[-–]\s*(\d{4}|present|current)` anchored at the
current position; returns `(group 1, group 2)`. -/
def expM1At (cs : List Char) : Option (List Char × List Char) :=
  match takeDigits 4 cs with
  | none => none
  | some (g1, r1) =>
    match dropWs r1 with
    | c :: r3 =>
      if isDashChar c then (expAlt1 (dropWs r3)).map (fun g2 => (g1, g2))
      else none
    | [] => none

/-- Pattern `(\d{4})\s*[-–]\s*(present|current)` anchored at the current
position. -/
def expM2At (cs : List Char) : Option (List Char × List Char) :=
  match takeDigits 4 cs with
  | none => none
  | some (g1, r1) =>
    match dropWs r1 with
    | c :: r3 =>
      if isDashChar c then (expAlt2 (dropWs r3)).map (fun g2 => (g1, g2))
      else none
    | [] => none

/-- Pattern `(\d{1,2}/\d{4})\s*[-–]\s*(\d{1,2}/\d{4}|present|current)`
anchored at the current position. -/
def expM3At (cs : List Char) : Option (List Char × List Char) :=
  match mmyy cs with
  | none => none
  | some (g1, r1) =>
    match dropWs r1 with
    | c :: r3 =>
      if isDashChar c then (expAlt3 (dropWs r3)).map (fun g2 => (g1, g2))
      else none
    | [] => none

/-- Entry built at lines 243-253: the start year is the first 4-digit run
of the start token when present, else the start token itself. -/
def mkExpEntry (role company g1 g2 : List Char) : ExpEntry :=
  { role := role, company := company,
    startYear := (run4 g1).getD g1,
    endYear := g2,
    period := g1 ++ (" - ").data ++ g2 }

/-- The `role` from the previous line (lines 233-236): its stripped form when
longer than 3 characters. -/
def expRole (prev : Option (List Char)) : List Char :=
  match prev with
  | none => []
  | some p => let s := pyStrip p; if 3 < s.length then s else []

/-- The `company` from the next line (lines 238-241). -/
def expCompany (nxt : Option (List Char)) : List Char :=
  match nxt with
  | none => []
  | some p => let s := pyStrip p; if 3 < s.length then s else []

/-- Entries contributed by one line: the inner `for pattern in
experience_patterns` loop (lines 222-253) has no break, so every matching
pattern appends an entry. -/
def lineEntries (prev : Option (List Char)) (line : List Char)
    (nxt : Option (List Char)) : List ExpEntry :=
  let role := expRole prev
  let company := expCompany nxt
  ((searchWith expM1At line).map (fun g => mkExpEntry role company g.1 g.2)).toList ++
    ((searchWith expM2At line).map (fun g => mkExpEntry role company g.1 g.2)).toList ++
    ((searchWith expM3At line).map (fun g => mkExpEntry role company g.1 g.2)).toList

/-- The outer `for i, line in enumerate(lines)` loop, carrying the
previous line and peeking at the next. -/
def expGo (prev : Option (List Char)) : List (List Char) → List ExpEntry
  | [] => []
  | line :: rest => lineEntries prev line rest.head? ++ expGo (some line) rest

/-- The `SimpleResumeParser._extract_experience` (lines 209-255): all lines,
capped to the first 5 entries. -/
def extractExperience (text : List Char) : List ExpEntry :=
  (expGo none (splitNL text)).take 5

/-- Entries contributed by one line as the claim words it: only the first
matching pattern contributes. -/
def lineEntriesClaim (prev : Option (List Char)) (line : List Char)
    (nxt : Option (List Char)) : List ExpEntry :=
  let role := expRole prev
  let company := expCompany nxt
  match searchWith expM1At line <|> searchWith expM2At line <|> searchWith expM3At line with
  | some g => [mkExpEntry role company g.1 g.2]
  | none => []

/-- The scanning loop for the claim's first-pattern-only reading. -/
def expGoClaim (prev : Option (List Char)) : List (List Char) → List ExpEntry
  | [] => []
  | line :: rest => lineEntriesClaim prev line rest.head? ++ expGoClaim (some line) rest

/-- Experience extraction as the claim words it. -/
def claimExtractExperience (text : List Char) : List ExpEntry :=
  (expGoClaim none (splitNL text)).take 5

/-- How many of the three period patterns match a given line. -/
def expMatchCount (line : List Char) : Nat :=
  [(searchWith expM1At line).isSome, (searchWith expM2At line).isSome,
    (searchWith expM3At line).isSome].count true

/-! ### Phone extraction (`simple_resume_parser.py`, lines 150-163)

Pattern 1 `(\+?1?[-.\s]?)?\(?([0-9]{3})\)?[-.\s]?([0-9]{3})[-.\s]?([0-9]{4})`
is embedded as a chain of matchers, one per optional piece, each trying the
consuming path before the skipping path exactly as the backtracking engine
does.  Its first group always participates (its body can match empty), so
on this pattern `''.join(match.groups())` is safe. -/

/-- The separator class `[-.\s]`. -/
def isSepChar (c : Char) : Bool := c = '-' || c = '.' || isPySpace c

/-- The four captured groups of phone pattern 1. -/
structure Ph1Groups where
  g1 : List Char
  g2 : List Char
  g3 : List Char
  g4 : List Char
deriving DecidableEq, Repr

/-- The `''.join(match.groups())` for pattern 1 (line 162). -/
def ph1Join (g : Ph1Groups) : List Char := g.g1 ++ g.g2 ++ g.g3 ++ g.g4

/-- Final `([0-9]{4})` of pattern 1. -/
def ph1d4 (g1 g2 g3 : List Char) (cs : List Char) : Option Ph1Groups :=
  (takeDigits 4 cs).map (fun p => ⟨g1, g2, g3, p.1⟩)

/-- Third `[-.\s]?` of pattern 1. -/
def ph1sep3 (g1 g2 g3 : List Char) : List Char → Option Ph1Groups
  | [] => ph1d4 g1 g2 g3 []
  | c :: rest =>
    (if isSepChar c then ph1d4 g1 g2 g3 rest else none) <|> ph1d4 g1 g2 g3 (c :: rest)

/-- The `([0-9]{3})` (group 3) of pattern 1. -/
def ph1g3 (g1 g2 : List Char) (cs : List Char) : Option Ph1Groups :=
  match takeDigits 3 cs with
  | some (g3, rest) => ph1sep3 g1 g2 g3 rest
  | none => none

/-- Second `[-.\s]?` of pattern 1. -/
def ph1sep2 (g1 g2 : List Char) : List Char → Option Ph1Groups
  | [] => ph1g3 g1 g2 []
  | c :: rest =>
    (if isSepChar c then ph1g3 g1 g2 rest else none) <|> ph1g3 g1 g2 (c :: rest)

/-- The `\)?` of pattern 1. -/
def ph1rpar (g1 g2 : List Char) : List Char → Option Ph1Groups
  | [] => ph1sep2 g1 g2 []
  | c :: rest =>
    (if c = ')' then ph1sep2 g1 g2 rest else none) <|> ph1sep2 g1 g2 (c :: rest)

/-- The `([0-9]{3})` (group 2) of pattern 1. -/
def ph1g2 (g1 : List Char) (cs : List Char) : Option Ph1Groups :=
  match takeDigits 3 cs with
  | some (g2, rest) => ph1rpar g1 g2 rest
  | none => none

/-- The `\(?` of pattern 1. -/
def ph1lpar (g1 : List Char) : List Char → Option Ph1Groups
  | [] => ph1g2 g1 []
  | c :: rest =>
    (if c = '(' then ph1g2 g1 rest else none) <|> ph1g2 g1 (c :: rest)

/-- The `[-.\s]?` inside group 1 of pattern 1 (the separator is captured). -/
def ph1sep1 (g1 : List Char) : List Char → Option Ph1Groups
  | [] => ph1lpar g1 []
  | c :: rest =>
    (if isSepChar c then ph1lpar (g1 ++ [c]) rest else none) <|> ph1lpar g1 (c :: rest)

/-- The `1?` inside group 1 of pattern 1. -/
def ph1one (g1 : List Char) : List Char → Option Ph1Groups
  | [] => ph1sep1 g1 []
  | c :: rest =>
    (if c = '1' then ph1sep1 (g1 ++ [c]) rest else none) <|> ph1sep1 g1 (c :: rest)

/-- Phone pattern 1 anchored at the current position (`\+?` first). -/
def ph1At : List Char → Option Ph1Groups
  | [] => ph1one [] []
  | c :: rest =>
    (if c = '+' then ph1one ['+'] rest else none) <|> ph1one [] (c :: rest)

/-- The `[6-9]\d{9}`, the uncaptured core of phone pattern 2. -/
def ph2core : List Char → Option Unit
  | [] => none
  | c :: rest =>
    if '6' ≤ c && c ≤ '9' then (takeDigits 9 rest).map (fun _ => ()) else none

/-- Phone pattern 2 `(\+91[-.\s]?)?[6-9]\d{9}` anchored at the current
position.  Its only group is the optional prefix, so the result is the
group-1 value: `none` models Python's unset group `None`. -/
def ph2At (cs : List Char) : Option (Option (List Char)) :=
  (match cs with
   | '+' :: '9' :: '1' :: rest =>
     (match rest with
      | c :: rest2 =>
        (if isSepChar c then
           (ph2core rest2).map (fun _ => some ('+' :: '9' :: '1' :: [c]))
         else none) <|>
          (ph2core rest).map (fun _ => some ['+', '9', '1'])
      | [] => (ph2core []).map (fun _ => some ['+', '9', '1']))
   | _ => none) <|>
    (ph2core cs).map (fun _ => (none : Option (List Char)))

/-- The `\d{10,}`, the uncaptured core of phone pattern 3: it matches here
exactly when 10 digits start here (the greedy extension affects neither
success nor the only group). -/
def ph3core (cs : List Char) : Option Unit :=
  (takeDigits 10 cs).map (fun _ => ())

/-- The `[-.\s]?` closing group 1 of phone pattern 3. -/
def ph3afterSep (pre : List Char) (cs : List Char) : Option (Option (List Char)) :=
  match cs with
  | [] => (ph3core []).map (fun _ => some pre)
  | c :: rest =>
    (if isSepChar c then (ph3core rest).map (fun _ => some (pre ++ [c])) else none) <|>
      (ph3core (c :: rest)).map (fun _ => some pre)

/-- The `\d{1,3}` of phone pattern 3, greedy three-two-one backtracking. -/
def ph3digits (cs : List Char) : Option (Option (List Char)) :=
  (match takeDigits 3 cs with
   | some (ds, rest) => ph3afterSep ('+' :: ds) rest
   | none => none) <|>
  (match takeDigits 2 cs with
   | some (ds, rest) => ph3afterSep ('+' :: ds) rest
   | none => none) <|>
  (match takeDigits 1 cs with
   | some (ds, rest) => ph3afterSep ('+' :: ds) rest
   | none => none)

/-- Phone pattern 3 `(\+\d{1,3}[-.\s]?)?\d{10,}` anchored at the current
position; the result is the group-1 value. -/
def ph3At (cs : List Char) : Option (Option (List Char)) :=
  (match cs with
   | '+' :: rest => ph3digits rest
   | _ => none) <|>
    (ph3core cs).map (fun _ => (none : Option (List Char)))

/-- The `SimpleResumeParser._extract_phone` (lines 150-163).  The `.error`
value models the `TypeError` that `''.join(match.groups())` would raise
when the only group of pattern 2 or 3 is unset (`None`). -/
def extractPhone (text : List Char) : Except Unit (Option (List Char)) :=
  match searchWith ph1At text with
  | some g => .ok (some (ph1Join g))
  | none =>
    match searchWith ph2At text with
    | some (some g1) => .ok (some g1)
    | some none => .error ()
    | none =>
      match searchWith ph3At text with
      | some (some g1) => .ok (some g1)
      | some none => .error ()
      | none => .ok none

/-- Phone extraction restricted to the first (US-style) pattern: the
claim's refinement target. -/
def extractPhoneUS (text : List Char) : Option (List Char) :=
  (searchWith ph1At text).map ph1Join

/-! ### Email extraction (`simple_resume_parser.py`, lines 144-148)

Pattern `\b[A-Za-z0-9._%+-]+@[A-Za-z0-9.-]+\.[A-Z|a-z]{2,}\b`; the
backtracking over the domain-dot split and over the TLD length is spelled
out, longest candidates first. -/

/-- Python `\w` (ASCII model). -/
def isWordCh (c : Char) : Bool := c.isAlphanum || c = '_'

/-- The local-part class `[A-Za-z0-9._%+-]`. -/
def localCh (c : Char) : Bool :=
  c.isAlphanum || c = '.' || c = '_' || c = '%' || c = '+' || c = '-'

/-- The domain class `[A-Za-z0-9.-]`. -/
def domCh (c : Char) : Bool := c.isAlphanum || c = '.' || c = '-'

/-- The TLD class `[A-Z|a-z]` (the literal `|` belongs to the class). -/
def tldCh (c : Char) : Bool := c.isAlpha || c = '|'

/-- The `\b`: a word boundary between two (possibly absent) characters. -/
def wordBdy (prev nxt : Option Char) : Bool :=
  (match prev with | some p => isWordCh p | none => false) !=
    (match nxt with | some c => isWordCh c | none => false)

/-- The `[A-Z|a-z]{2,}\b`: try TLD lengths from `t` (the maximal run) down to
2, accepting the first with a word boundary after it. -/
def emailTldTry (whole rest2 : List Char) : Nat → Option (List Char)
  | 0 => none
  | t + 1 =>
    (if 2 ≤ t + 1 then
       let cand := rest2.take (t + 1)
       if wordBdy cand.getLast? (rest2.drop (t + 1)).head? then
         some (whole ++ cand)
       else none
     else none) <|> emailTldTry whole rest2 t

/-- The `[A-Za-z0-9.-]+\.` with backtracking: try domain-part lengths from `j`
(the maximal run) down to 1, requiring a literal dot right after. -/
def emailDomTry (L r1 : List Char) : Nat → Option (List Char)
  | 0 => none
  | j + 1 =>
    (match r1.drop (j + 1) with
     | '.' :: rest2 =>
       emailTldTry (L ++ '@' :: (r1.take (j + 1)) ++ ['.']) rest2
         ((rest2.takeWhile tldCh).length)
     | _ => none) <|> emailDomTry L r1 j

/-- The email pattern anchored at the current position; `prev` is the
character before it, for the leading `\b`. -/
def emailAt (prev : Option Char) (cs : List Char) : Option (List Char) :=
  match cs with
  | [] => none
  | c0 :: _ =>
    let L := cs.takeWhile localCh
    if L.isEmpty then none
    else if wordBdy prev (some c0) then
      match cs.drop L.length with
      | '@' :: r1 => emailDomTry L r1 ((r1.takeWhile domCh).length)
      | _ => none
    else none

/-- The `re.search` scan for the email pattern, tracking the previous
character for the boundary test. -/
def emailSearch (prev : Option Char) : List Char → Option (List Char)
  | [] => emailAt prev []
  | c :: rest => emailAt prev (c :: rest) <|> emailSearch (some c) rest

/-- The `SimpleResumeParser._extract_email` (lines 144-148). -/
def extractEmail (text : List Char) : Option (List Char) :=
  emailSearch none text

/-! ### Skills, technologies, education, domain
(`simple_resume_parser.py`, lines 165-207, 257-281, 331-353) -/

/-- Python `str.title()` (ASCII model): an alphabetic character is
uppercased after a non-alphabetic one and lowercased otherwise. -/
def pyTitleGo : Bool → List Char → List Char
  | _, [] => []
  | prevAlpha, c :: rest =>
    (if c.isAlpha then (if prevAlpha then c.toLower else c.toUpper) else c) ::
      pyTitleGo c.isAlpha rest

/-- Python `str.title()`. -/
def pyTitle (cs : List Char) : List Char := pyTitleGo false cs

/-- The `common_skills` list (lines 168-177). -/
def commonSkills : List (List Char) :=
  [("python").data, ("java").data, ("javascript").data, ("react").data,
   ("node.js").data, ("sql").data, ("aws").data,
   ("docker").data, ("kubernetes").data, ("machine learning").data,
   ("ai").data, ("data science").data,
   ("project management").data, ("agile").data, ("scrum").data,
   ("git").data, ("devops").data,
   ("html").data, ("css").data, ("typescript").data, ("angular").data,
   ("vue").data, ("mongodb").data,
   ("postgresql").data, ("mysql").data, ("redis").data,
   ("elasticsearch").data, ("kafka").data,
   ("spring").data, ("django").data, ("flask").data, ("express").data,
   ("fastapi").data, ("rest api").data,
   ("microservices").data, ("cloud computing").data, ("azure").data,
   ("gcp").data, ("jenkins").data,
   ("ci/cd").data, ("terraform").data, ("ansible").data, ("linux").data,
   ("windows").data, ("macos").data]

/-- The `technologies` list (lines 191-198). -/
def technologiesList : List (List Char) :=
  [("python").data, ("java").data, ("javascript").data, ("typescript").data,
   ("react").data, ("angular").data,
   ("vue").data, ("node.js").data, ("express").data, ("django").data,
   ("flask").data, ("spring").data,
   ("postgresql").data, ("mysql").data, ("mongodb").data, ("redis").data,
   ("elasticsearch").data,
   ("aws").data, ("azure").data, ("gcp").data, ("docker").data,
   ("kubernetes").data, ("jenkins").data,
   ("git").data, ("github").data, ("gitlab").data, ("jira").data,
   ("confluence").data, ("figma").data,
   ("photoshop").data, ("illustrator").data, ("sketch").data]

/-- The `SimpleResumeParser._extract_skills` (lines 165-186): case-insensitive
substring membership, title-cased matches, de-duplicated.  Python's
`list(set(...))` order is implementation-defined; the model keeps first
occurrences in list order. -/
def extractSkills (text : List Char) : List (List Char) :=
  (((commonSkills.filter (fun s => containsSeq (lowerL s) (lowerL text))).map
    pyTitle)).dedup

/-- The `SimpleResumeParser._extract_technologies` (lines 188-207), same shape
as `extractSkills` over the technologies list. -/
def extractTechnologies (text : List Char) : List (List Char) :=
  (((technologiesList.filter (fun s => containsSeq (lowerL s) (lowerL text))).map
    pyTitle)).dedup

/-- The `education_keywords` list (line 259). -/
def eduKeywords : List (List Char) :=
  [("education").data, ("degree").data, ("university").data, ("college").data,
   ("bachelor").data, ("master").data, ("phd").data, ("b.tech").data,
   ("m.tech").data, ("mba").data]

/-- The line scan of `_extract_education` (lines 262-279): keyword lines
become `(degree, institution)` pairs, the institution being the next
stripped line when longer than 3 characters. -/
def eduGo : List (List Char) → List (List Char × List Char)
  | [] => []
  | line :: rest =>
    if eduKeywords.any (fun k => containsSeq k (lowerL line)) then
      (pyStrip line,
        match rest.head? with
        | some nxt => let s := pyStrip nxt; if 3 < s.length then s else []
        | none => []) :: eduGo rest
    else eduGo rest

/-- The `SimpleResumeParser._extract_education` (lines 257-281), capped to 3
entries. -/
def extractEducation (text : List Char) : List (List Char × List Char) :=
  (eduGo (splitNL text)).take 3

/-- Keyword membership helper for `_classify_domain`. -/
def anyKw (ws : List (List Char)) (tl : List Char) : Bool :=
  ws.any (fun w => containsSeq w tl)

/-- The `SimpleResumeParser._classify_domain` (lines 331-353): first-match-wins
keyword groups; the `skills` argument is accepted and unused, as in the
source. -/
def classifyDomain (text : List Char) (_skills : List (List Char)) : List Char :=
  let tl := lowerL text
  if anyKw [("frontend").data, ("ui").data, ("ux").data, ("react").data,
      ("angular").data, ("vue").data, ("html").data, ("css").data] tl then
    ("frontend").data
  else if anyKw [("backend").data, ("api").data, ("server").data,
      ("database").data, ("sql").data, ("nosql").data] tl then
    ("backend").data
  else if anyKw [("fullstack").data, ("full-stack").data, ("full stack").data] tl then
    ("fullstack").data
  else if anyKw [("data science").data, ("machine learning").data, ("ai").data,
      ("ml").data, ("analytics").data] tl then
    ("data_science").data
  else if anyKw [("devops").data, ("cloud").data, ("aws").data, ("azure").data,
      ("docker").data, ("kubernetes").data] tl then
    ("devops").data
  else if anyKw [("mobile").data, ("ios").data, ("android").data,
      ("react native").data, ("flutter").data] tl then
    ("mobile").data
  else if anyKw [("qa").data, ("testing").data, ("quality assurance").data,
      ("test automation").data] tl then
    ("qa").data
  else if anyKw [("product").data, ("project management").data, ("agile").data,
      ("scrum").data] tl then
    ("product").data
  else
    ("general").data

/-! ### Current position (`simple_resume_parser.py`, lines 283-304)

The two fallback regexes with their lazy group `(.+?)`, greedy `\s+` and
optional non-capturing groups are embedded with explicit candidate lists in
backtracking preference order. -/

/-- Rests after `\s+` consumes `n, n-1, ..., 1` whitespace characters,
greedy first (`n` the maximal whitespace run). -/
def wsPlusRests (cs : List Char) : List (List Char) :=
  let n := (cs.takeWhile isPySpace).length
  (List.range n).map (fun k => cs.drop (n - k))

/-- Candidate lengths `1, 2, ...` for the lazy `(.+?)` (shortest first;
`.` does not cross a newline). -/
def dotLazyCands (cs : List Char) : List Nat :=
  (List.range ((cs.takeWhile (fun c => c != '\n')).length)).map (· + 1)

/-- The greedy final `(.+)`: everything up to the next newline. -/
def dotAll (cs : List Char) : List Char := cs.takeWhile (fun c => c != '\n')

/-- The `(?:at|@)`, case-insensitive. -/
def atOrAmp (cs : List Char) : Option (List Char) :=
  match ciMatchHead (("at").data) cs with
  | some (_, r) => some r
  | none =>
    match cs with
    | '@' :: r => some r
    | _ => none

/-- The `(?:at|@)\s+(.+)` of fallback pattern 1; returns group 2. -/
def cpTail (cs : List Char) : Option (List Char) :=
  match atOrAmp cs with
  | none => none
  | some r1 =>
    (wsPlusRests r1).findSome? (fun r2 =>
      let g2 := dotAll r2
      if g2.isEmpty then none else some g2)

/-- The `(.+?)(?:at|@)\s+(.+)` of fallback pattern 1; returns (group 1,
group 2). -/
def cpGroup1 (cs : List Char) : Option (List Char × List Char) :=
  (dotLazyCands cs).findSome? (fun k =>
    (cpTail (cs.drop k)).map (fun g2 => (cs.take k, g2)))

/-- The `(?:as\s+)?` before the groups of fallback pattern 1. -/
def cpOptAs (cs : List Char) : Option (List Char × List Char) :=
  (match ciMatchHead (("as").data) cs with
   | some (_, r) => (wsPlusRests r).findSome? cpGroup1
   | none => none) <|> cpGroup1 cs

/-- The `(?:working\s+)?` before that. -/
def cpOptWorking (cs : List Char) : Option (List Char × List Char) :=
  (match ciMatchHead (("working").data) cs with
   | some (_, r) => (wsPlusRests r).findSome? cpOptAs
   | none => none) <|> cpOptAs cs

/-- Fallback pattern 1
`current(?:ly)?\s+(?:working\s+)?(?:as\s+)?(.+?)(?:at|@)\s+(.+)` anchored
at the current position. -/
def cp1At (cs : List Char) : Option (List Char × List Char) :=
  match ciMatchHead (("current").data) cs with
  | none => none
  | some (_, r) =>
    (match ciMatchHead (("ly").data) r with
     | some (_, r2) => (wsPlusRests r2).findSome? cpOptWorking
     | none => none) <|> (wsPlusRests r).findSome? cpOptWorking

/-- The `\s+(?:at|@)\s+(.+)` of fallback pattern 2; returns group 2. -/
def cp2Tail (cs : List Char) : Option (List Char) :=
  (wsPlusRests cs).findSome? (fun r1 =>
    match atOrAmp r1 with
    | none => none
    | some r2 =>
      (wsPlusRests r2).findSome? (fun r3 =>
        let g2 := dotAll r3
        if g2.isEmpty then none else some g2))

/-- The `(.+?)\s+(?:at|@)\s+(.+)` of fallback pattern 2. -/
def cp2Group1 (cs : List Char) : Option (List Char × List Char) :=
  (dotLazyCands cs).findSome? (fun k =>
    (cp2Tail (cs.drop k)).map (fun g2 => (cs.take k, g2)))

/-- The `(?:as\s+)?` of fallback pattern 2. -/
def cp2OptAs (cs : List Char) : Option (List Char × List Char) :=
  (match ciMatchHead (("as").data) cs with
   | some (_, r) => (wsPlusRests r).findSome? cp2Group1
   | none => none) <|> cp2Group1 cs

/-- Fallback pattern 2
`(?:working\s+)?(?:as\s+)?(.+?)\s+(?:at|@)\s+(.+)` anchored at the
current position. -/
def cp2At (cs : List Char) : Option (List Char × List Char) :=
  (match ciMatchHead (("working").data) cs with
   | some (_, r) => (wsPlusRests r).findSome? cp2OptAs
   | none => none) <|> cp2OptAs cs

/-- The `SimpleResumeParser._extract_current_position` (lines 283-304): the
first experience entry when any exists, otherwise the two fallback
regexes, else empty strings. -/
def extractCurrentPosition (text : List Char) : List Char × List Char :=
  match extractExperience text with
  | e :: _ => (e.role, e.company)
  | [] =>
    match searchWith cp1At text with
    | some g => (pyStrip g.1, pyStrip g.2)
    | none =>
      match searchWith cp2At text with
      | some g => (pyStrip g.1, pyStrip g.2)
      | none => ([], [])

/-! ### Structured data, parsing and the orchestrator
(`simple_resume_parser.py` lines 16-59 and 93-127, `resumes.py`
lines 356-480) -/

/-- The dictionary built by `_extract_structured_data` (lines 115-127). -/
structure CandidateFacts where
  name : Option (List Char)
  email : Option (List Char)
  phone : Option (List Char)
  currentRole : List Char
  currentCompany : List Char
  yearsExperience : Int
  domain : List Char
  skills : List (List Char)
  technologies : List (List Char)
  experience : List ExpEntry
  education : List (List Char × List Char)
deriving DecidableEq, Repr

/-- The `SimpleResumeParser._extract_structured_data` (lines 93-127).  The
`Except` layer carries the one conceivable exception, the `TypeError` of
`_extract_phone`. -/
def extractStructuredData (text : List Char) : Except Unit CandidateFacts :=
  match extractPhone text with
  | .error e => .error e
  | .ok phone =>
    let skills := extractSkills text
    let experience := extractExperience text
    let cp := extractCurrentPosition text
    .ok { name := extractName text
          email := extractEmail text
          phone := phone
          currentRole := cp.1
          currentCompany := cp.2
          yearsExperience := calculateYearsExperience experience
          domain := classifyDomain text skills
          skills := skills
          technologies := extractTechnologies text
          experience := experience
          education := extractEducation text }

/-- The `SimpleResumeParser._create_chunks` (lines 355-368): stripped nonempty
paragraphs. -/
def createChunks (text : List Char) : List (List Char) :=
  (splitNN text).filterMap (fun p =>
    let s := pyStrip p
    if s.isEmpty then none else some s)

/-- Outcome of `SimpleResumeParser.parse_resume`: the success dictionary
(lines 50-55) or the failure dictionary (lines 33 and 59). -/
inductive ParseRes where
  | ok (parsed : CandidateFacts) (raw : List Char) (chunks : List (List Char))
  | fail (err : List Char)
deriving DecidableEq, Repr

/-- The `SimpleResumeParser.parse_resume` (lines 16-59).  Text extraction is
I/O, so the per-type extraction results arrive as `Except` values whose
error is caught by the method's own handler; unknown type tags fail with
the message of line 33. -/
def parseResumeModel (fileType : List Char)
    (pdfText docxText txtText : Except (List Char) (List Char)) : ParseRes :=
  let go : Except (List Char) (List Char) → ParseRes := fun t =>
    match t with
    | .error e => .fail e
    | .ok text =>
      match extractStructuredData text with
      | .ok facts => .ok facts text (createChunks text)
      | .error _ => .fail (("TypeError").data)
  if lowerL fileType = ("pdf").data then go pdfText
  else if lowerL fileType = ("docx").data then go docxText
  else if lowerL fileType = ("txt").data then go txtText
  else .fail ((("Unsupported file type: ").data) ++ fileType)

/-- The Document columns `process_resume` touches (`resumes.py`,
lines 406-461). -/
structure DocState where
  isProcessed : Bool
  processingError : Option (List Char)
  facts : Option CandidateFacts
  chunksCount : Nat
  chunkRows : List (List Char)
  isIndexed : Bool
  openaiFileId : Option (List Char)
deriving DecidableEq, Repr

/-- One fixed behaviour of each collaborator call `process_resume` makes;
`.error` means the call raises (with the exception's message). -/
structure Collab where
  download : Except (List Char) (Option Unit)
  parse : Except (List Char) ParseRes
  chunker : Except (List Char) (List (List Char))
  embed : Except (List Char) Unit
  upload : Except (List Char) (List Char)

/-- The body of `process_resume` inside its outer `try` (`resumes.py`,
lines 358-475): the Document state reached, and the pending exception if
one escaped to the outer handler.  Mutations made before an exception
persist, as in Python. -/
def processBody (c : Collab) (d : DocState) : DocState × Option (List Char) :=
  match c.download with
  | .error e => (d, some e)
  | .ok none => (d, some (("Could not download file from MinIO").data))
  | .ok (some _) =>
    match c.parse with
    | .error e => (d, some e)
    | .ok (.fail err) => ({ d with processingError := some err }, none)
    | .ok (.ok facts _raw _pchunks) =>
      let d1 := { d with facts := some facts, isProcessed := true }
      match c.chunker with
      | .error e => (d1, some e)
      | .ok chunks =>
        let d2 := { d1 with chunksCount := chunks.length,
                            chunkRows := d1.chunkRows ++ chunks }
        let d3 :=
          match c.embed with
          | .ok _ => { d2 with isIndexed := true }
          | .error _ => d2
        let d4 :=
          match c.upload with
          | .ok fid => { d3 with openaiFileId := some fid }
          | .error _ => d3
        (d4, none)

/-- The `process_resume` (`resumes.py`, lines 356-480): the outer handler
(lines 477-480) records any escaped exception as the Document's processing
error and returns normally. -/
def processResume (c : Collab) (d : DocState) : Except (List Char) DocState :=
  match processBody c d with
  | (d', none) => .ok d'
  | (d', some e) => .ok { d' with processingError := some e }

/-! ## Helper lemmas -/

lemma orElse_isSome_left {α : Type} {a b : Option α} (h : a.isSome) :
    (a <|> b).isSome := by
  cases a with
  | none => simp at h
  | some x => simp [Option.orElse]

lemma orElse_isSome_right {α : Type} {a b : Option α} (h : b.isSome) :
    (a <|> b).isSome := by
  cases a with
  | none => simpa [Option.orElse]
  | some x => simp [Option.orElse]

lemma isSome_of_orElse {α : Type} {a b : Option α} (h : (a <|> b).isSome) :
    a.isSome ∨ b.isSome := by
  cases a with
  | none => right; simpa [Option.orElse] using h
  | some x => left; rfl

/-! ### Years of experience (claim C4) -/

lemma calcYearsGo_eq (es : List ExpEntry) :
    ∀ t : Int, calcYearsGo t es = t + (es.map codeYearsContrib).sum := by
  induction es with
  | nil => intro t; simp [calcYearsGo]
  | cons e es ih =>
    intro t
    by_cases h : expStartInt e > 0
    · simp only [calcYearsGo, if_pos h, ih, codeYearsContrib, List.map_cons,
        List.sum_cons]
      ring
    · simp only [calcYearsGo, if_neg h, ih, codeYearsContrib, List.map_cons,
        List.sum_cons]
      ring

lemma codeYearsContrib_nonneg (e : ExpEntry) : 0 ≤ codeYearsContrib e := by
  unfold codeYearsContrib
  split
  · exact le_max_left 0 _
  · exact le_refl 0

/-- C4 counterexample: the claim's formula counts an entry whose start
token's first 4-digit run is `0000`, but the code skips it (its parsed
start year `0` fails the `start_year > 0` guard), so the two disagree on
`[{start: "0000", end: "2020"}]`. -/
theorem C4_counterexample :
    calculateYearsExperience [⟨[], [], ("0000").data, ("2020").data, []⟩] = 0 ∧
    claimYears [⟨[], [], ("0000").data, ("2020").data, []⟩] = 2020 := by
  decide

/-- C4 (amended): years of experience equals the sum over entries of
`max(0, end_year - start_year)`, where entries whose start token has no
4-digit run, or whose first 4-digit run has value `0`, are skipped; the
result is non-negative, `0` on the empty list, and the claim's worked
example `[{2018, "2020"}, {2020, "present"}]` with reference year 2024
gives 6. -/
theorem C4_theorem :
    (∀ es : List ExpEntry,
      calculateYearsExperience es = (es.map codeYearsContrib).sum ∧
        0 ≤ calculateYearsExperience es) ∧
    calculateYearsExperience [] = 0 ∧
    calculateYearsExperience
      [⟨[], [], ("2018").data, ("2020").data, []⟩,
       ⟨[], [], ("2020").data, ("present").data, []⟩] = 6 := by
  refine ⟨fun es => ?_, by decide, by decide⟩
  have h : calculateYearsExperience es = (es.map codeYearsContrib).sum := by
    simpa using calcYearsGo_eq es 0
  refine ⟨h, ?_⟩
  rw [h]
  refine List.sum_nonneg ?_
  intro x hx
  obtain ⟨e, _, rfl⟩ := List.mem_map.mp hx
  exact codeYearsContrib_nonneg e

/-- C6: for every behaviour of the collaborators (storage download,
parser, chunker, embedding, vector-store upload), including throwing,
`process_resume` returns normally and the Document is terminal: marked
processed or with a processing error recorded. -/
theorem C6_theorem (c : Collab) (d : DocState) :
    ∃ d', processResume c d = Except.ok d' ∧
      (d'.isProcessed = true ∨ d'.processingError.isSome = true) := by
  obtain ⟨dl, pr, ch, em, up⟩ := c
  cases dl with
  | error e => exact ⟨_, rfl, Or.inr rfl⟩
  | ok o =>
    cases o with
    | none => exact ⟨_, rfl, Or.inr rfl⟩
    | some u =>
      cases pr with
      | error e => exact ⟨_, rfl, Or.inr rfl⟩
      | ok res =>
        cases res with
        | fail err => exact ⟨_, rfl, Or.inr rfl⟩
        | ok facts raw pchunks =>
          cases ch with
          | error e => exact ⟨_, rfl, Or.inr rfl⟩
          | ok chunks =>
            cases em <;> cases up <;> exact ⟨_, rfl, Or.inl rfl⟩

/-- C8: a file type tag that is not pdf, docx or txt (case-insensitively)
makes parsing fail with an error message naming the tag; the Document ends
not processed, with that error recorded, and no chunk rows are created. -/
theorem C8_theorem (ftype : List Char)
    (pdfT docxT txtT : Except (List Char) (List Char))
    (ch : Except (List Char) (List (List Char))) (em : Except (List Char) Unit)
    (up : Except (List Char) (List Char)) (d : DocState)
    (h1 : lowerL ftype ≠ ("pdf").data) (h2 : lowerL ftype ≠ ("docx").data)
    (h3 : lowerL ftype ≠ ("txt").data)
    (h4 : d.isProcessed = false) (h5 : d.chunkRows = []) :
    ∃ d', processResume
        ⟨.ok (some ()), .ok (parseResumeModel ftype pdfT docxT txtT), ch, em, up⟩ d =
        Except.ok d' ∧
      d'.processingError = some ((("Unsupported file type: ").data) ++ ftype) ∧
      d'.isProcessed = false ∧ d'.chunkRows = [] := by
  have hp : parseResumeModel ftype pdfT docxT txtT =
      .fail ((("Unsupported file type: ").data) ++ ftype) := by
    unfold parseResumeModel
    rw [if_neg h1, if_neg h2, if_neg h3]
  rw [hp]
  exact ⟨_, rfl, rfl, h4, h5⟩

/-- C8 witness at the tag `"exe"` on a fresh Document. -/
theorem C8_witness :
    lowerL (("exe").data) ≠ ("pdf").data ∧
    (∃ d', processResume
        ⟨.ok (some ()),
         .ok (parseResumeModel (("exe").data) (.ok []) (.ok []) (.ok [])),
         .ok [], .ok (), .ok []⟩
        ⟨false, none, none, 0, [], false, none⟩ = Except.ok d' ∧
      d'.processingError =
        some ((("Unsupported file type: ").data) ++ ("exe").data) ∧
      d'.isProcessed = false ∧ d'.chunkRows = []) :=
  ⟨by decide,
    C8_theorem (("exe").data) (.ok []) (.ok []) (.ok []) (.ok []) (.ok ()) (.ok [])
      ⟨false, none, none, 0, [], false, none⟩
      (by decide) (by decide) (by decide) rfl rfl⟩

/-! ### Experience extraction (claim C3) -/

lemma lineEntries_eq_claim (prev : Option (List Char)) (line : List Char)
    (nxt : Option (List Char)) (h : expMatchCount line ≤ 1) :
    lineEntries prev line nxt = lineEntriesClaim prev line nxt := by
  unfold expMatchCount at h
  unfold lineEntries lineEntriesClaim
  rcases h1 : searchWith expM1At line with _ | g1 <;>
    rcases h2 : searchWith expM2At line with _ | g2 <;>
    rcases h3 : searchWith expM3At line with _ | g3 <;>
    simp [h1, h2, h3] at h ⊢

lemma expGo_eq_claim : ∀ (lines : List (List Char)) (prev : Option (List Char)),
    (∀ l ∈ lines, expMatchCount l ≤ 1) → expGo prev lines = expGoClaim prev lines := by
  intro lines
  induction lines with
  | nil => intro prev _; rfl
  | cons line rest ih =>
    intro prev h
    simp only [expGo, expGoClaim]
    rw [lineEntries_eq_claim _ _ _ (h line (List.mem_cons_self _ _)),
      ih _ (fun l hl => h l (List.mem_cons_of_mem _ hl))]

/-- C3 counterexample: the single-line text `"2018 - present"` yields two
experience entries (one per matching pattern; the loop has no break),
refuting "at most one entry per line, from the first matching pattern". -/
theorem C3_counterexample :
    (splitNL (("2018 - present").data)).length = 1 ∧
    (extractExperience (("2018 - present").data)).length = 2 := by
  decide

/-- C3 (amended): each of the three period patterns that matches a line
contributes one entry, so on texts where no line is matched by more than
one pattern the extraction agrees with the claim's first-pattern-only
reading (role/company/cap-5 rules unchanged). -/
theorem C3_theorem (text : List Char)
    (h : ∀ l ∈ splitNL text, expMatchCount l ≤ 1) :
    extractExperience text = claimExtractExperience text := by
  unfold extractExperience claimExtractExperience
  rw [expGo_eq_claim _ _ h]

/-- C3 witness on a three-line resume fragment matched only by the
`YYYY-YYYY` pattern. -/
theorem C3_witness :
    (∀ l ∈ splitNL (("Engineer\n2016 - 2019\nAcme Corp").data),
      expMatchCount l ≤ 1) ∧
    extractExperience (("Engineer\n2016 - 2019\nAcme Corp").data) =
      claimExtractExperience (("Engineer\n2016 - 2019\nAcme Corp").data) :=
  ⟨by decide, C3_theorem _ (by decide)⟩

/-! ### Name extraction (claim C7) -/

lemma dropWhile_head_false {p : Char → Bool} :
    ∀ {cs : List Char} {c : Char} {rest : List Char},
      cs.dropWhile p = c :: rest → p c = false := by
  intro cs
  induction cs with
  | nil => intro c rest h; simp [List.dropWhile] at h
  | cons x xs ih =>
    intro c rest h
    by_cases hx : p x
    · rw [List.dropWhile_cons_of_pos hx] at h
      exact ih h
    · rw [List.dropWhile_cons_of_neg hx] at h
      obtain ⟨rfl, _⟩ := List.cons.inj h
      exact Bool.eq_false_iff.mpr hx

lemma pyStrip_head_not_space {l : List Char} {c : Char} {rest : List Char}
    (h : pyStrip l = c :: rest) : isPySpace c = false := by
  have h' : (pyRStrip l).dropWhile isPySpace = c :: rest := h
  exact dropWhile_head_false h'

lemma tokCount_pos {c : Char} {rest : List Char} (h : isPySpace c = false) :
    1 ≤ tokCount (c :: rest) := by
  simp [tokCount, tokGo, h]

lemma nameOk_eq_claim (l : List Char) :
    nameOk (pyStrip l) = claimNamePred (pyStrip l) := by
  cases hs : pyStrip l with
  | nil => simp [nameOk, claimNamePred, tokCount, tokGo]
  | cons c rest =>
    have h1 : 1 ≤ tokCount (c :: rest) :=
      tokCount_pos (pyStrip_head_not_space hs)
    simp only [nameOk, claimNamePred, List.isEmpty_cons, Bool.not_false,
      Bool.true_and, decide_eq_true_eq, h1, decide_True]
    cases decide (tokCount (c :: rest) ≤ 4) <;>
      cases decide (2 < (c :: rest).length) <;>
      cases hasAsciiLetter (c :: rest) <;>
      cases nonNameWords.any (fun w => containsSeq (lowerL w) (lowerL (c :: rest))) <;>
      rfl

lemma extractNameGo_eq_find :
    ∀ lines : List (List Char),
      extractNameGo lines = (lines.map pyStrip).find? claimNamePred := by
  intro lines
  induction lines with
  | nil => rfl
  | cons line rest ih =>
    simp only [extractNameGo, List.map_cons, List.find?_cons]
    cases h : claimNamePred (pyStrip line) with
    | false => simp [nameOk_eq_claim line, h, ih]
    | true => simp [nameOk_eq_claim line, h]

/-- C7 counterexample: ten leading blank lines push the name line out of
`lines[:10]`, so the code returns null while the claim's first-10-non-empty
scan returns the name. -/
theorem C7_counterexample :
    extractName (("\n\n\n\n\n\n\n\n\n\nJohn Smith").data) = none ∧
    claimExtractName (("\n\n\n\n\n\n\n\n\n\nJohn Smith").data) =
      some (("John Smith").data) := by
  decide

/-- C7 (amended): name extraction scans the first 10 lines (empty or not)
and returns the first whose stripped form has 1-4 tokens, length over 2,
an ASCII letter, and no banned substring; null when none of the first 10
lines qualifies. -/
theorem C7_theorem (text : List Char) :
    extractName text = (((splitNL text).take 10).map pyStrip).find? claimNamePred :=
  extractNameGo_eq_find _

/-! ### Phone extraction (claims C9 and C5) -/

lemma takeDigits_split (m n : Nat) :
    ∀ {cs ds : List Char} {r : List Char},
      takeDigits (m + n) cs = some (ds, r) →
      ∃ ds1 mid ds2, takeDigits m cs = some (ds1, mid) ∧
        takeDigits n mid = some (ds2, r) := by
  induction m with
  | zero =>
    intro cs ds r h
    exact ⟨[], cs, ds, rfl, by simpa using h⟩
  | succ m ih =>
    intro cs ds r h
    rw [Nat.succ_add] at h
    cases cs with
    | nil => simp [takeDigits] at h
    | cons c cs' =>
      by_cases hd : c.isDigit
      · rw [takeDigits, if_pos hd] at h
        cases hq : takeDigits (m + n) cs' with
        | none => rw [hq] at h; simp at h
        | some q =>
          rw [hq] at h
          simp only [Option.map_some', Option.some.injEq, Prod.mk.injEq] at h
          obtain ⟨h1, h2⟩ := h
          subst h1
          subst h2
          obtain ⟨ds1, mid, ds2, ha, hb⟩ := ih hq
          refine ⟨c :: ds1, mid, ds2, ?_, hb⟩
          rw [takeDigits, if_pos hd, ha]
          rfl
      · rw [takeDigits, if_neg hd] at h
        exact absurd h (by simp)

lemma takeDigits_suffix (n : Nat) :
    ∀ {cs ds : List Char} {r : List Char},
      takeDigits n cs = some (ds, r) → r <:+ cs := by
  induction n with
  | zero =>
    intro cs ds r h
    simp only [takeDigits, Option.some.injEq, Prod.mk.injEq] at h
    rw [← h.2]
  | succ n ih =>
    intro cs ds r h
    cases cs with
    | nil => simp [takeDigits] at h
    | cons c cs' =>
      by_cases hd : c.isDigit
      · rw [takeDigits, if_pos hd] at h
        obtain ⟨p, hp, hpe⟩ := Option.map_eq_some'.mp h
        have hr : r = p.2 := by
          cases p; cases hpe; rfl
        exact (hr ▸ ih hp).trans (List.suffix_cons c cs')
      · rw [takeDigits, if_neg hd] at h
        exact absurd h (by simp)

lemma ph1sep3_of_d4 {g1 g2 g3 cs} (h : (ph1d4 g1 g2 g3 cs).isSome) :
    (ph1sep3 g1 g2 g3 cs).isSome := by
  cases cs with
  | nil => exact h
  | cons c rest => exact orElse_isSome_right h

lemma ph1sep2_of_g3 {g1 g2 cs} (h : (ph1g3 g1 g2 cs).isSome) :
    (ph1sep2 g1 g2 cs).isSome := by
  cases cs with
  | nil => exact h
  | cons c rest => exact orElse_isSome_right h

lemma ph1rpar_of_sep2 {g1 g2 cs} (h : (ph1sep2 g1 g2 cs).isSome) :
    (ph1rpar g1 g2 cs).isSome := by
  cases cs with
  | nil => exact h
  | cons c rest => exact orElse_isSome_right h

lemma ph1lpar_of_g2 {g1 cs} (h : (ph1g2 g1 cs).isSome) :
    (ph1lpar g1 cs).isSome := by
  cases cs with
  | nil => exact h
  | cons c rest => exact orElse_isSome_right h

lemma ph1sep1_of_lpar {g1 cs} (h : (ph1lpar g1 cs).isSome) :
    (ph1sep1 g1 cs).isSome := by
  cases cs with
  | nil => exact h
  | cons c rest => exact orElse_isSome_right h

lemma ph1one_of_sep1 {g1 cs} (h : (ph1sep1 g1 cs).isSome) :
    (ph1one g1 cs).isSome := by
  cases cs with
  | nil => exact h
  | cons c rest => exact orElse_isSome_right h

lemma ph1At_of_one {cs} (h : (ph1one [] cs).isSome) : (ph1At cs).isSome := by
  cases cs with
  | nil => exact h
  | cons c rest => exact orElse_isSome_right h

/-- Ten consecutive digits make phone pattern 1 match right there (with
all its optional pieces skipped). -/
lemma ph1At_of_ten {cs ds : List Char} {r : List Char}
    (h : takeDigits 10 cs = some (ds, r)) : (ph1At cs).isSome := by
  obtain ⟨d1, m1, d2, h3, h7⟩ := takeDigits_split 3 7 h
  obtain ⟨d3, m2, d4, h3b, h4⟩ := takeDigits_split 3 4 h7
  have hd4 : (ph1d4 [] d1 d3 m2).isSome := by simp [ph1d4, h4]
  have hg3 : (ph1g3 [] d1 m1).isSome := by
    simpa only [ph1g3, h3b] using ph1sep3_of_d4 hd4
  have hg2 : (ph1g2 [] cs).isSome := by
    simpa only [ph1g2, h3] using ph1rpar_of_sep2 (ph1sep2_of_g3 hg3)
  exact ph1At_of_one (ph1one_of_sep1 (ph1sep1_of_lpar (ph1lpar_of_g2 hg2)))

lemma searchWith_isSome_append {α : Type} {m : List Char → Option α}
    {r : List Char} (h : (m r).isSome) :
    ∀ pre : List Char, (searchWith m (pre ++ r)).isSome := by
  intro pre
  induction pre with
  | nil =>
    cases r with
    | nil => exact h
    | cons c rest => exact orElse_isSome_left h
  | cons p pre ih => exact orElse_isSome_right ih

lemma searchWith_isSome_of_suffix {α : Type} {m : List Char → Option α}
    {r cs : List Char} (hsuf : r <:+ cs) (h : (m r).isSome) :
    (searchWith m cs).isSome := by
  obtain ⟨pre, rfl⟩ := hsuf
  exact searchWith_isSome_append h pre

lemma searchWith_some_suffix {α : Type} {m : List Char → Option α} :
    ∀ {cs : List Char}, (searchWith m cs).isSome →
      ∃ r, r <:+ cs ∧ (m r).isSome := by
  intro cs
  induction cs with
  | nil => intro h; exact ⟨[], List.suffix_refl [], h⟩
  | cons c rest ih =>
    intro h
    rcases isSome_of_orElse h with h1 | h2
    · exact ⟨c :: rest, List.suffix_refl _, h1⟩
    · obtain ⟨r, hr, hm⟩ := ih h2
      exact ⟨r, hr.trans (List.suffix_cons c rest), hm⟩

lemma isDigit_of_69 {c : Char} (h : ('6' ≤ c && c ≤ '9') = true) :
    c.isDigit = true := by
  have h' : '6' ≤ c ∧ c ≤ '9' := by simpa using h
  have h0 : '0' ≤ c := le_trans (by decide) h'.1
  simp only [Char.isDigit, Bool.and_eq_true, decide_eq_true_eq, ge_iff_le]
  exact ⟨h0, h'.2⟩

lemma ph2core_ten {cs : List Char} (h : (ph2core cs).isSome) :
    (takeDigits 10 cs).isSome := by
  cases cs with
  | nil => simp [ph2core] at h
  | cons c rest =>
    have he : ph2core (c :: rest) =
        if ('6' ≤ c && c ≤ '9') then (takeDigits 9 rest).map (fun _ => ()) else none :=
      rfl
    rw [he] at h
    by_cases h69 : ('6' ≤ c && c ≤ '9') = true
    · rw [if_pos h69] at h
      cases h9 : takeDigits 9 rest with
      | none => rw [h9] at h; simp at h
      | some p =>
        have ht : takeDigits 10 (c :: rest) =
            if c.isDigit then (takeDigits 9 rest).map (fun q => (c :: q.1, q.2))
            else none := rfl
        rw [ht, if_pos (isDigit_of_69 h69), h9]
        rfl
    · rw [if_neg h69] at h
      simp at h

lemma mapIsSome {α β : Type} {f : α → β} {o : Option α}
    (h : (o.map f).isSome) : o.isSome := by
  cases o with
  | none => simp at h
  | some a => rfl

/-- A successful match of phone pattern 2 exhibits 10 consecutive digits
at some suffix. -/
lemma ph2At_ten {cs : List Char} (h : (ph2At cs).isSome) :
    ∃ r, r <:+ cs ∧ (takeDigits 10 r).isSome := by
  unfold ph2At at h
  rcases isSome_of_orElse h with h1 | h2
  · split at h1
    next rest =>
      cases rest with
      | nil => simp [ph2core] at h1
      | cons c rest2 =>
        rcases isSome_of_orElse h1 with ha | hb
        · by_cases hsep : isSepChar c = true
          · rw [if_pos hsep] at ha
            exact ⟨rest2, ⟨['+', '9', '1', c], rfl⟩, ph2core_ten (mapIsSome ha)⟩
          · rw [if_neg hsep] at ha
            simp at ha
        · exact ⟨c :: rest2, ⟨['+', '9', '1'], rfl⟩, ph2core_ten (mapIsSome hb)⟩
    next => simp at h1
  · exact ⟨cs, List.suffix_refl _, ph2core_ten (mapIsSome h2)⟩

lemma ph3afterSep_ten {pre : List Char} {cs : List Char}
    (h : (ph3afterSep pre cs).isSome) :
    ∃ r, r <:+ cs ∧ (takeDigits 10 r).isSome := by
  unfold ph3afterSep at h
  cases cs with
  | nil => simp [ph3core, takeDigits] at h
  | cons c rest =>
    rcases isSome_of_orElse h with ha | hb
    · by_cases hsep : isSepChar c = true
      · rw [if_pos hsep] at ha
        have ht : (takeDigits 10 rest).isSome := by
          have := mapIsSome ha
          unfold ph3core at this
          exact mapIsSome this
        exact ⟨rest, ⟨[c], rfl⟩, ht⟩
      · rw [if_neg hsep] at ha
        simp at ha
    · have ht : (takeDigits 10 (c :: rest)).isSome := by
        have := mapIsSome hb
        unfold ph3core at this
        exact mapIsSome this
      exact ⟨c :: rest, List.suffix_refl _, ht⟩

lemma ph3digits_ten {cs : List Char} (h : (ph3digits cs).isSome) :
    ∃ r, r <:+ cs ∧ (takeDigits 10 r).isSome := by
  unfold ph3digits at h
  rcases isSome_of_orElse h with h1 | h23
  · split at h1
    next ds rest heq =>
      obtain ⟨r, hr, ht⟩ := ph3afterSep_ten h1
      exact ⟨r, hr.trans (takeDigits_suffix 3 heq), ht⟩
    next => simp at h1
  · rcases isSome_of_orElse h23 with h2 | h3
    · split at h2
      next ds rest heq =>
        obtain ⟨r, hr, ht⟩ := ph3afterSep_ten h2
        exact ⟨r, hr.trans (takeDigits_suffix 2 heq), ht⟩
      next => simp at h2
    · split at h3
      next ds rest heq =>
        obtain ⟨r, hr, ht⟩ := ph3afterSep_ten h3
        exact ⟨r, hr.trans (takeDigits_suffix 1 heq), ht⟩
      next => simp at h3

/-- A successful match of phone pattern 3 exhibits 10 consecutive digits
at some suffix. -/
lemma ph3At_ten {cs : List Char} (h : (ph3At cs).isSome) :
    ∃ r, r <:+ cs ∧ (takeDigits 10 r).isSome := by
  unfold ph3At at h
  rcases isSome_of_orElse h with h1 | h2
  · split at h1
    next rest =>
      obtain ⟨r, hr, ht⟩ := ph3digits_ten h1
      exact ⟨r, hr.trans (List.suffix_cons '+' rest), ht⟩
    next => simp at h1
  · have ht : (takeDigits 10 cs).isSome := by
      have := mapIsSome h2
      unfold ph3core at this
      exact mapIsSome this
    exact ⟨cs, List.suffix_refl _, ht⟩

/-- The `_extract_phone` is decided by its first pattern alone: whenever the
Indian or international pattern matches, 10 consecutive digits are present
and the US-style pattern already matched, so the fallbacks (and their
`None`-group `TypeError`) are unreachable. -/
lemma extractPhone_eq (text : List Char) :
    extractPhone text = Except.ok (extractPhoneUS text) := by
  unfold extractPhone extractPhoneUS
  cases h1 : searchWith ph1At text with
  | some g => rfl
  | none =>
    have hno : ∀ {r : List Char}, r <:+ text → (takeDigits 10 r).isSome → False := by
      intro r hsuf hten
      obtain ⟨p, hp⟩ := Option.isSome_iff_exists.mp hten
      have h1s : (ph1At r).isSome := ph1At_of_ten hp
      have hse := searchWith_isSome_of_suffix hsuf h1s
      rw [h1] at hse
      simp at hse
    have h2 : searchWith ph2At text = none := by
      cases h2' : searchWith ph2At text with
      | none => rfl
      | some v =>
        exfalso
        have hs : (searchWith ph2At text).isSome := by rw [h2']; rfl
        obtain ⟨r, hsuf, hm⟩ := searchWith_some_suffix hs
        obtain ⟨r2, hsuf2, hten⟩ := ph2At_ten hm
        exact hno (hsuf2.trans hsuf) hten
    have h3 : searchWith ph3At text = none := by
      cases h3' : searchWith ph3At text with
      | none => rfl
      | some v =>
        exfalso
        have hs : (searchWith ph3At text).isSome := by rw [h3']; rfl
        obtain ⟨r, hsuf, hm⟩ := searchWith_some_suffix hs
        obtain ⟨r2, hsuf2, hten⟩ := ph3At_ten hm
        exact hno (hsuf2.trans hsuf) hten
    rw [h2, h3]
    rfl

/-- C9: phone extraction is equivalent to a version using only the first
(US-style 3-3-4) pattern; the Indian and international fallback patterns
never determine the result, and in particular the `TypeError` their unset
group would cause in `''.join` never occurs. -/
theorem C9_theorem (text : List Char) :
    extractPhone text = Except.ok (extractPhoneUS text) :=
  extractPhone_eq text

/-- C5: the field extractor returns a `CandidateFacts` value for every
text, never an error, and each field is exactly its per-field extractor's
value (null or empty when nothing matches). -/
theorem C5_theorem (text : List Char) :
    extractStructuredData text = Except.ok
      { name := extractName text
        email := extractEmail text
        phone := extractPhoneUS text
        currentRole := (extractCurrentPosition text).1
        currentCompany := (extractCurrentPosition text).2
        yearsExperience := calculateYearsExperience (extractExperience text)
        domain := classifyDomain text (extractSkills text)
        skills := extractSkills text
        technologies := extractTechnologies text
        experience := extractExperience text
        education := extractEducation text } := by
  unfold extractStructuredData
  rw [extractPhone_eq]

/-! ### Chunker lemmas (claims C1, C2, C10) -/

lemma dropWhile_eq_self_of_all {p : Char → Bool} :
    ∀ {cs : List Char}, (∀ c ∈ cs, p c = false) → cs.dropWhile p = cs := by
  intro cs h
  cases cs with
  | nil => rfl
  | cons c rest =>
    exact List.dropWhile_cons_of_neg (by simp [h c (List.mem_cons_self c rest)])

lemma dropWhile_eq_nil_of_all {p : Char → Bool} :
    ∀ {cs : List Char}, (∀ c ∈ cs, p c = true) → cs.dropWhile p = [] := by
  intro cs
  induction cs with
  | nil => intro _; rfl
  | cons c rest ih =>
    intro h
    rw [List.dropWhile_cons_of_pos (h c (List.mem_cons_self c rest))]
    exact ih (fun x hx => h x (List.mem_cons_of_mem c hx))

lemma pyStrip_all_false {cs : List Char}
    (h : ∀ c ∈ cs, isPySpace c = false) : pyStrip cs = cs := by
  unfold pyStrip pyLStrip pyRStrip
  rw [dropWhile_eq_self_of_all (fun c hc => h c (List.mem_reverse.mp hc)),
    List.reverse_reverse, dropWhile_eq_self_of_all h]

lemma pyStrip_all_ws {cs : List Char}
    (h : ∀ c ∈ cs, isPySpace c = true) : pyStrip cs = [] := by
  unfold pyStrip pyLStrip pyRStrip
  rw [dropWhile_eq_nil_of_all (fun c hc => h c (List.mem_reverse.mp hc))]
  rfl

lemma pyRStrip_append_nn (xs : List Char) :
    pyRStrip (xs ++ ['\n', '\n']) = pyRStrip xs := by
  unfold pyRStrip
  rw [List.reverse_append]
  rfl

lemma pyStrip_append_nn (xs : List Char) :
    pyStrip (xs ++ ['\n', '\n']) = pyStrip xs := by
  unfold pyStrip
  rw [pyRStrip_append_nn]

lemma pyRStrip_append_dotspace (xs : List Char) :
    pyRStrip (xs ++ ['.', ' ']) = xs ++ ['.'] := by
  unfold pyRStrip
  rw [List.reverse_append]
  show (([' ', '.'] ++ xs.reverse).dropWhile isPySpace).reverse = xs ++ ['.']
  rw [show ([' ', '.'] ++ xs.reverse).dropWhile isPySpace = '.' :: xs.reverse from rfl]
  rw [List.reverse_cons, List.reverse_reverse]

lemma pyStrip_append_dotspace (xs : List Char) :
    pyStrip (xs ++ ['.', ' ']) = pyLStrip (xs ++ ['.']) := by
  unfold pyStrip
  rw [pyRStrip_append_dotspace]

lemma pyLStrip_length_le (xs : List Char) : (pyLStrip xs).length ≤ xs.length := by
  unfold pyLStrip
  induction xs with
  | nil => exact le_refl _
  | cons c rest ih =>
    by_cases hc : isPySpace c = true
    · rw [List.dropWhile_cons_of_pos hc]
      exact ih.trans (Nat.le_succ _)
    · rw [List.dropWhile_cons_of_neg (by simp [hc])]

lemma nonWs_append (a b : List Char) : nonWs (a ++ b) = nonWs a ++ nonWs b := by
  unfold nonWs
  exact List.filter_append a b

lemma nonWs_dropWhile (cs : List Char) :
    nonWs (cs.dropWhile isPySpace) = nonWs cs := by
  induction cs with
  | nil => rfl
  | cons c rest ih =>
    by_cases hc : isPySpace c = true
    · rw [List.dropWhile_cons_of_pos hc, ih]
      simp [nonWs, List.filter_cons, hc]
    · rw [List.dropWhile_cons_of_neg (by simp [hc])]

lemma nonWs_reverse (cs : List Char) : nonWs cs.reverse = (nonWs cs).reverse :=
  List.filter_reverse _ _

lemma nonWs_pyStrip (cs : List Char) : nonWs (pyStrip cs) = nonWs cs := by
  unfold pyStrip pyLStrip pyRStrip
  rw [nonWs_dropWhile, nonWs_reverse, nonWs_dropWhile, nonWs_reverse,
    List.reverse_reverse]

lemma splitNN_ne_nil (cs : List Char) : splitNN cs ≠ [] := by
  induction cs using splitNN.induct with
  | case1 => simp [splitNN]
  | case2 c => simp [splitNN]
  | case3 c1 c2 rest h ih => simp [splitNN, h]
  | case4 c1 c2 rest h heq ih => exact absurd heq ih
  | case5 c1 c2 rest h ht t heq ih =>
    have hn : ¬(c1 = '\n' ∧ c2 = '\n') := h
    simp [splitNN, if_neg hn, heq]

lemma joinNN_cons_cons (c : Char) (h : List Char) (t : List (List Char)) :
    joinNN ((c :: h) :: t) = c :: joinNN (h :: t) := by
  cases t with
  | nil => rfl
  | cons p ps => rfl

lemma joinNN_splitNN (cs : List Char) : joinNN (splitNN cs) = cs := by
  induction cs using splitNN.induct with
  | case1 => rfl
  | case2 c => rfl
  | case3 c1 c2 rest h ih =>
    simp only [splitNN, if_pos h]
    cases hsp : splitNN rest with
    | nil => exact absurd hsp (splitNN_ne_nil rest)
    | cons p ps =>
      rw [hsp] at ih
      rw [show joinNN ([] :: p :: ps) = '\n' :: '\n' :: joinNN (p :: ps) from rfl,
        ih, h.1, h.2]
  | case4 c1 c2 rest h heq ih => exact absurd heq (splitNN_ne_nil _)
  | case5 c1 c2 rest h ht t heq ih =>
    have hn : ¬(c1 = '\n' ∧ c2 = '\n') := h
    simp only [splitNN, if_neg hn, heq]
    rw [heq] at ih
    rw [joinNN_cons_cons, ih]

lemma nonWs_joinNN (l : List (List Char)) : nonWs (joinNN l) = nonWs l.flatten := by
  induction l with
  | nil => rfl
  | cons p ps ih =>
    cases ps with
    | nil => simp [joinNN, List.flatten]
    | cons q qs =>
      rw [show joinNN (p :: q :: qs) = p ++ '\n' :: '\n' :: joinNN (q :: qs) from rfl]
      rw [show (p :: q :: qs).flatten = p ++ (q :: qs).flatten from rfl]
      rw [nonWs_append, nonWs_append]
      rw [show nonWs ('\n' :: '\n' :: joinNN (q :: qs)) = nonWs (joinNN (q :: qs))
        from rfl]
      rw [ih]

lemma splitNN_mem_mem {cs : List Char} :
    ∀ p ∈ splitNN cs, ∀ c ∈ p, c ∈ cs := by
  induction cs using splitNN.induct with
  | case1 => intro p hp c hc; simp [splitNN] at hp; simp [hp] at hc
  | case2 a =>
    intro p hp c hc
    simp [splitNN] at hp
    subst hp
    simpa using hc
  | case3 c1 c2 rest h ih =>
    intro p hp c hc
    simp only [splitNN, if_pos h, List.mem_cons] at hp
    rcases hp with rfl | hp
    · simp at hc
    · exact List.mem_cons_of_mem _ (List.mem_cons_of_mem _ (ih p hp c hc))
  | case4 c1 c2 rest h heq ih => exact absurd heq (splitNN_ne_nil _)
  | case5 c1 c2 rest h ht t heq ih =>
    intro p hp c hc
    have hn : ¬(c1 = '\n' ∧ c2 = '\n') := h
    simp only [splitNN, if_neg hn, heq, List.mem_cons] at hp
    rcases hp with rfl | hp
    · rcases List.mem_cons.mp hc with rfl | hc'
      · exact List.mem_cons_self _ _
      · have : c ∈ c2 :: rest := ih ht (heq ▸ List.mem_cons_self _ _) c hc'
        exact List.mem_cons_of_mem _ this
    · have : c ∈ c2 :: rest := ih p (heq ▸ List.mem_cons_of_mem _ hp) c hc
      exact List.mem_cons_of_mem _ this

lemma splitNN_sumLens (cs : List Char) :
    ((splitNN cs).map (fun p => p.length + 2)).sum = cs.length + 2 := by
  induction cs using splitNN.induct with
  | case1 => rfl
  | case2 c => rfl
  | case3 c1 c2 rest h ih =>
    simp only [splitNN, if_pos h, List.map_cons, List.sum_cons, ih,
      List.length_cons, List.length_nil]
    omega
  | case4 c1 c2 rest h heq ih => exact absurd heq (splitNN_ne_nil _)
  | case5 c1 c2 rest h ht t heq ih =>
    have hn : ¬(c1 = '\n' ∧ c2 = '\n') := h
    rw [heq] at ih
    simp only [splitNN, if_neg hn, heq, List.map_cons, List.sum_cons] at ih ⊢
    simp only [List.length_cons] at ih ⊢
    omega

lemma paraPass_ws :
    ∀ (paras : List (List Char)) (chunks : List (List Char)) (current : List Char),
      (∀ p ∈ paras, ∀ c ∈ p, isPySpace c = true) →
      (∀ c ∈ current, isPySpace c = true) →
      (current ≠ [] ∨ paras ≠ []) →
      current.length + (paras.map (fun p => p.length + 2)).sum ≤ 802 →
      paraPass paras chunks current = chunks ++ [[]] := by
  intro paras
  induction paras with
  | nil =>
    intro chunks current _ hcur hne _
    have hc : current ≠ [] := hne.resolve_right (fun h => h rfl)
    rw [show paraPass [] chunks current =
      if current = [] then chunks else chunks ++ [pyStrip current] from rfl]
    rw [if_neg hc, pyStrip_all_ws hcur]
  | cons p ps ih =>
    intro chunks current hws hcur _ hlen
    have hsum : 0 ≤ (ps.map (fun q => q.length + 2)).sum := Nat.zero_le _
    have hfit : current.length + p.length ≤ chunkSize := by
      simp only [List.map_cons, List.sum_cons] at hlen
      unfold chunkSize
      omega
    rw [show paraPass (p :: ps) chunks current =
      if current.length + p.length ≤ chunkSize then
        paraPass ps chunks (current ++ p ++ ['\n', '\n'])
      else paraPass ps (if current = [] then chunks else chunks ++ [pyStrip current])
        (p ++ ['\n', '\n']) from rfl]
    rw [if_pos hfit]
    refine ih chunks _ (fun q hq => hws q (List.mem_cons_of_mem p hq)) ?_ ?_ ?_
    · intro c hc
      rcases List.mem_append.mp hc with hc1 | hc2
      · rcases List.mem_append.mp hc1 with hc3 | hc4
        · exact hcur c hc3
        · exact hws p (List.mem_cons_self p ps) c hc4
      · rcases List.mem_cons.mp hc2 with rfl | hc5
        · rfl
        · simp at hc5
          subst hc5
          rfl
    · left
      simp
    · simp only [List.length_append, List.length_cons, List.length_nil,
        List.map_cons, List.sum_cons] at hlen ⊢
      omega

/-- C10 (amended): the empty text, and more generally every
whitespace-only text of length at most 800, chunks to the one-element list
containing the empty chunk. -/
theorem C10_theorem (text : List Char)
    (hws : ∀ c ∈ text, isPySpace c = true) (hlen : text.length ≤ 800) :
    chunkText text = [[]] ∧ (chunkText text).length = 1 := by
  have h1 : paraPass (splitNN text) [] [] = [[]] := by
    refine paraPass_ws (splitNN text) [] []
      (fun p hp c hc => hws c (splitNN_mem_mem p hp c hc))
      (by intro c hc; simp at hc)
      (Or.inr (splitNN_ne_nil text)) ?_
    rw [splitNN_sumLens]
    simpa using Nat.add_le_add_right hlen 2
  unfold chunkText
  rw [h1]
  exact ⟨by decide, by decide⟩

/-- C10 witness at the empty input. -/
theorem C10_witness :
    (∀ c ∈ ([] : List Char), isPySpace c = true) ∧ chunkText [] = [[]] :=
  ⟨by simp, (C10_theorem [] (by simp) (by decide)).1⟩

lemma splitNN_replicate_nl : ∀ n : Nat,
    splitNN (List.replicate (2 * n) '\n') = List.replicate (n + 1) [] := by
  intro n
  induction n with
  | zero => rfl
  | succ n ih =>
    have h2 : 2 * (n + 1) = (2 * n) + 1 + 1 := by omega
    rw [h2, List.replicate_succ, List.replicate_succ]
    rw [show splitNN ('\n' :: '\n' :: List.replicate (2 * n) '\n') =
      [] :: splitNN (List.replicate (2 * n) '\n') from by
        rw [show splitNN ('\n' :: '\n' :: List.replicate (2 * n) '\n') =
          if '\n' = '\n' ∧ '\n' = '\n' then [] :: splitNN (List.replicate (2 * n) '\n')
          else match splitNN ('\n' :: List.replicate (2 * n) '\n') with
            | [] => [['\n']]
            | h :: t => ('\n' :: h) :: t from rfl]
        rw [if_pos ⟨rfl, rfl⟩]]
    rw [ih]
    simp [List.replicate_succ]

lemma paraPass_nils_step :
    ∀ (k m : Nat) (chunks rest : List (List Char)), m + 2 * k ≤ 802 →
      paraPass (List.replicate k [] ++ rest) chunks (List.replicate m '\n') =
        paraPass rest chunks (List.replicate (m + 2 * k) '\n') := by
  intro k
  induction k with
  | zero => intro m chunks rest _; simp
  | succ k ih =>
    intro m chunks rest hle
    rw [List.replicate_succ, List.cons_append]
    have hfit : (List.replicate m '\n').length + ([] : List Char).length ≤ chunkSize := by
      simp only [List.length_replicate, List.length_nil]
      unfold chunkSize
      omega
    rw [show paraPass ([] :: (List.replicate k [] ++ rest)) chunks (List.replicate m '\n') =
      if (List.replicate m '\n').length + ([] : List Char).length ≤ chunkSize then
        paraPass (List.replicate k [] ++ rest) chunks
          (List.replicate m '\n' ++ [] ++ ['\n', '\n'])
      else paraPass (List.replicate k [] ++ rest)
        (if List.replicate m '\n' = [] then chunks else chunks ++ [pyStrip (List.replicate m '\n')])
        ([] ++ ['\n', '\n']) from rfl]
    rw [if_pos hfit]
    have harg : List.replicate m '\n' ++ [] ++ ['\n', '\n'] =
        List.replicate (m + 2) '\n' := by
      rw [List.append_nil, show ['\n', '\n'] = List.replicate 2 '\n' from rfl,
        ← List.replicate_add]
    rw [harg, ih (m + 2) chunks rest (by omega)]
    have hm : m + 2 + 2 * k = m + 2 * (k + 1) := by omega
    rw [hm]

/-- C10 counterexample: the whitespace-only text of 802 newlines (401
blank-line separators) chunks to two empty chunks, not one. -/
theorem C10_counterexample :
    (∀ c ∈ List.replicate 802 '\n', isPySpace c = true) ∧
    chunkText (List.replicate 802 '\n') = [[], []] := by
  constructor
  · intro c hc
    rw [List.eq_of_mem_replicate hc]
    rfl
  · unfold chunkText
    have hs : splitNN (List.replicate 802 '\n') = List.replicate 402 [] := by
      have := splitNN_replicate_nl 401
      norm_num at this
      exact this
    rw [hs]
    rw [show List.replicate 402 ([] : List Char) = List.replicate 401 [] ++ [[]] from by
      rw [← List.replicate_succ']]
    have hstep := paraPass_nils_step 401 0 [] [[]] (by norm_num)
    norm_num at hstep
    rw [hstep]
    rw [show paraPass [[]] [] (List.replicate 802 '\n') =
      if (List.replicate 802 '\n').length + ([] : List Char).length ≤ chunkSize then
        paraPass [] [] (List.replicate 802 '\n' ++ [] ++ ['\n', '\n'])
      else paraPass []
        (if List.replicate 802 '\n' = [] then [] else [] ++ [pyStrip (List.replicate 802 '\n')])
        ([] ++ ['\n', '\n']) from rfl]
    rw [if_neg (by simp [chunkSize])]
    rw [if_neg (by simp)]
    rw [pyStrip_all_ws (fun c hc => by rw [List.eq_of_mem_replicate hc]; rfl)]
    rw [show paraPass [] ([] ++ [[]]) ([] ++ ['\n', '\n']) =
      [[]] ++ [pyStrip ['\n', '\n']] from rfl]
    rw [show pyStrip ['\n', '\n'] = [] from by decide]
    decide

lemma splitLarge_id : ∀ {l : List (List Char)},
    (∀ c ∈ l, c.length ≤ 800) → splitLarge l = l := by
  intro l
  induction l with
  | nil => intro _; rfl
  | cons c rest ih =>
    intro h
    rw [show splitLarge (c :: rest) =
      (if c.length ≤ chunkSize then [c] else sentPass (splitPunct c) [] []) ++
        splitLarge rest from rfl]
    have hcs : c.length ≤ chunkSize := h c (List.mem_cons_self c rest)
    rw [if_pos hcs, ih (fun x hx => h x (List.mem_cons_of_mem c hx))]
    rfl

lemma nonWs_paraPass : ∀ (paras chunks : List (List Char)) (current : List Char),
    nonWs ((paraPass paras chunks current).flatten) =
      nonWs chunks.flatten ++ nonWs current ++ nonWs paras.flatten := by
  intro paras
  induction paras with
  | nil =>
    intro chunks current
    by_cases hc : current = []
    · subst hc
      rw [show paraPass [] chunks [] = chunks from rfl]
      simp [nonWs]
    · rw [show paraPass [] chunks current =
        if current = [] then chunks else chunks ++ [pyStrip current] from rfl,
        if_neg hc]
      rw [List.flatten_append, nonWs_append]
      rw [show ([pyStrip current] : List (List Char)).flatten = pyStrip current ++ []
        from rfl]
      rw [List.append_nil, nonWs_pyStrip]
      simp [nonWs]
  | cons p ps ih =>
    intro chunks current
    rw [show paraPass (p :: ps) chunks current =
      if current.length + p.length ≤ chunkSize then
        paraPass ps chunks (current ++ p ++ ['\n', '\n'])
      else paraPass ps
        (if current = [] then chunks else chunks ++ [pyStrip current])
        (p ++ ['\n', '\n']) from rfl]
    by_cases hle : current.length + p.length ≤ chunkSize
    · rw [if_pos hle, ih]
      rw [nonWs_append, nonWs_append]
      rw [show nonWs ['\n', '\n'] = [] from rfl]
      rw [show (p :: ps).flatten = p ++ ps.flatten from rfl, nonWs_append]
      simp [List.append_assoc]
    · rw [if_neg hle, ih]
      rw [nonWs_append]
      rw [show nonWs ['\n', '\n'] = [] from rfl]
      rw [show (p :: ps).flatten = p ++ ps.flatten from rfl, nonWs_append]
      by_cases hc : current = []
      · subst hc
        rw [if_pos rfl]
        simp [nonWs, List.append_assoc]
      · rw [if_neg hc]
        rw [List.flatten_append, nonWs_append]
        rw [show ([pyStrip current] : List (List Char)).flatten = pyStrip current ++ []
          from rfl]
        rw [List.append_nil, nonWs_pyStrip]
        simp [List.append_assoc]

/-- C2 (amended): whenever the paragraph pass alone produces chunks of
size at most 800 (so the sentence re-splitting never runs), concatenating
the chunks in order preserves the text's sequence of non-whitespace
characters; in general the sentence pass rewrites punctuation runs to a
single period, a non-whitespace change. -/
theorem C2_theorem (text : List Char)
    (h : ∀ c ∈ paraPass (splitNN text) [] [], c.length ≤ 800) :
    nonWs ((chunkText text).flatten) = nonWs text := by
  unfold chunkText
  rw [splitLarge_id h, nonWs_paraPass]
  rw [show nonWs (([] : List (List Char)).flatten) = [] from rfl]
  rw [show nonWs ([] : List Char) = [] from rfl]
  simp only [List.nil_append]
  rw [← nonWs_joinNN, joinNN_splitNN]

/-- C2 witness on the two-character text `"hi"`. -/
theorem C2_witness :
    (∀ c ∈ paraPass (splitNN (("hi").data)) [] [], c.length ≤ 800) ∧
    nonWs ((chunkText (("hi").data)).flatten) = nonWs (("hi").data) :=
  ⟨by decide, C2_theorem _ (by decide)⟩

lemma spGo_false_all {cs : List Char}
    (h : ∀ c ∈ cs, isSentPunct c = false) : spGo false cs = [cs] := by
  induction cs with
  | nil => rfl
  | cons c rest ih =>
    have e : spGo false (c :: rest) =
        if isSentPunct c = true then [] :: spGo true rest
        else match spGo false rest with
          | [] => [[c]]
          | h :: t => (c :: h) :: t := rfl
    rw [e, if_neg (by simp [h c (List.mem_cons_self c rest)]),
      ih (fun x hx => h x (List.mem_cons_of_mem c hx))]

lemma spGo_true_cons {c : Char} {rest : List Char} (h : isSentPunct c = false) :
    spGo true (c :: rest) = spGo false (c :: rest) := by
  have e1 : spGo true (c :: rest) =
      if isSentPunct c = true then spGo true rest
      else match spGo false rest with
        | [] => [[c]]
        | h :: t => (c :: h) :: t := rfl
  have e2 : spGo false (c :: rest) =
      if isSentPunct c = true then [] :: spGo true rest
      else match spGo false rest with
        | [] => [[c]]
        | h :: t => (c :: h) :: t := rfl
  rw [e1, e2, if_neg (by simp [h]), if_neg (by simp [h])]

lemma spGo_false_append_punct {xs ys : List Char}
    (hx : ∀ c ∈ xs, isSentPunct c = false) :
    spGo false (xs ++ '.' :: ys) = xs :: spGo true ys := by
  induction xs with
  | nil =>
    have e : spGo false ('.' :: ys) =
        if isSentPunct '.' = true then [] :: spGo true ys
        else match spGo false ys with
          | [] => [['.']]
          | h :: t => ('.' :: h) :: t := rfl
    rw [List.nil_append, e, if_pos (show isSentPunct '.' = true from rfl)]
  | cons c rest ih =>
    have e : spGo false (c :: (rest ++ '.' :: ys)) =
        if isSentPunct c = true then [] :: spGo true (rest ++ '.' :: ys)
        else match spGo false (rest ++ '.' :: ys) with
          | [] => [[c]]
          | h :: t => (c :: h) :: t := rfl
    rw [List.cons_append, e, if_neg (by simp [hx c (List.mem_cons_self c rest)]),
      ih (fun x hxx => hx x (List.mem_cons_of_mem c hxx))]

lemma splitNN_no_nl : ∀ cs : List Char,
    (∀ c ∈ cs, ¬c = '\n') → splitNN cs = [cs] := by
  intro cs
  induction cs using splitNN.induct with
  | case1 => intro _; rfl
  | case2 c => intro _; rfl
  | case3 c1 c2 rest hnn ih =>
    intro h
    exact absurd hnn.1 (h c1 (List.mem_cons_self _ _))
  | case4 c1 c2 rest hn heq ih => intro h; exact absurd heq (splitNN_ne_nil _)
  | case5 c1 c2 rest hn ht t heq ih =>
    intro h
    have hrest := ih (fun c hc => h c (List.mem_cons_of_mem c1 hc))
    rw [heq] at hrest
    obtain ⟨h1, h2⟩ := List.cons.inj hrest
    simp only [splitNN, if_neg hn, heq]
    rw [h1, h2]

lemma paraPass_single (p : List Char) (chunks : List (List Char)) :
    paraPass [p] chunks [] = chunks ++ [pyStrip (p ++ ['\n', '\n'])] := by
  rw [show paraPass [p] chunks [] =
    if ([] : List Char).length + p.length ≤ chunkSize then
      paraPass [] chunks ([] ++ p ++ ['\n', '\n'])
    else paraPass [] (if ([] : List Char) = [] then chunks else chunks ++ [pyStrip []])
      (p ++ ['\n', '\n']) from rfl]
  by_cases hle : ([] : List Char).length + p.length ≤ chunkSize
  · rw [if_pos hle]
    rw [show ([] : List Char) ++ p ++ ['\n', '\n'] = p ++ ['\n', '\n'] from by simp]
    rw [show paraPass [] chunks (p ++ ['\n', '\n']) =
      if p ++ ['\n', '\n'] = [] then chunks else chunks ++ [pyStrip (p ++ ['\n', '\n'])]
      from rfl]
    rw [if_neg (by simp)]
  · rw [if_neg hle, if_pos rfl]
    rw [show paraPass [] chunks (p ++ ['\n', '\n']) =
      if p ++ ['\n', '\n'] = [] then chunks else chunks ++ [pyStrip (p ++ ['\n', '\n'])]
      from rfl]
    rw [if_neg (by simp)]

lemma nonWs_all_false {cs : List Char}
    (h : ∀ c ∈ cs, isPySpace c = false) : nonWs cs = cs := by
  unfold nonWs
  exact List.filter_eq_self.mpr (fun a ha => by simp [h a ha])

/-- Symbolic evaluation of `chunk_text` on a single over-long "word": no
newlines, whitespace or punctuation, more than 800 characters.  The
sentence pass wraps it whole and appends a period. -/
lemma chunkText_single_word {p : List Char}
    (hnl : ∀ c ∈ p, ¬c = '\n') (hws : ∀ c ∈ p, isPySpace c = false)
    (hpu : ∀ c ∈ p, isSentPunct c = false) (hlen : 800 < p.length) :
    chunkText p = [p ++ ['.']] := by
  unfold chunkText
  rw [splitNN_no_nl p hnl, paraPass_single, List.nil_append, pyStrip_append_nn,
    pyStrip_all_false hws]
  rw [show splitLarge [p] =
    (if p.length ≤ chunkSize then [p] else sentPass (splitPunct p) [] []) ++
      splitLarge [] from rfl]
  rw [if_neg (by unfold chunkSize; omega)]
  rw [show splitLarge [] = [] from rfl, List.append_nil]
  unfold splitPunct
  rw [spGo_false_all hpu]
  rw [show sentPass [p] [] [] =
    if ([] : List Char).length + p.length ≤ chunkSize then
      sentPass [] [] ([] ++ p ++ ['.', ' '])
    else sentPass [] (if ([] : List Char) = [] then [] else [] ++ [pyStrip []])
      (p ++ ['.', ' ']) from rfl]
  rw [if_neg (by unfold chunkSize; simp; omega), if_pos rfl]
  rw [show sentPass [] [] (p ++ ['.', ' ']) =
    if p ++ ['.', ' '] = [] then [] else [] ++ [pyStrip (p ++ ['.', ' '])] from rfl]
  rw [if_neg (by simp), pyStrip_append_dotspace]
  cases hp : p with
  | nil => rw [hp] at hlen; simp at hlen
  | cons c rest =>
    have hcws : isPySpace c = false := hws c (hp ▸ List.mem_cons_self c rest)
    rw [show pyLStrip ((c :: rest) ++ ['.']) = (c :: rest) ++ ['.'] from by
      unfold pyLStrip
      rw [List.cons_append]
      exact List.dropWhile_cons_of_neg (by simp [hcws])]
    rfl

/-- C2 counterexample: a single 801-character paragraph without
punctuation is re-split by sentences and gains a terminal period, a
non-whitespace character absent from the input, so concatenation does not
reconstruct the text up to whitespace normalization. -/
theorem C2_counterexample :
    nonWs ((chunkText (List.replicate 801 'a')).flatten) ≠
      nonWs (List.replicate 801 'a') := by
  have hmem : ∀ c ∈ List.replicate 801 'a', c = 'a' :=
    fun c hc => List.eq_of_mem_replicate hc
  have hc : chunkText (List.replicate 801 'a') = [List.replicate 801 'a' ++ ['.']] :=
    chunkText_single_word
      (fun c hcm => by rw [hmem c hcm]; decide)
      (fun c hcm => by rw [hmem c hcm]; rfl)
      (fun c hcm => by rw [hmem c hcm]; rfl)
      (by simp)
  rw [hc]
  rw [show ([List.replicate 801 'a' ++ ['.']] : List (List Char)).flatten =
    List.replicate 801 'a' ++ ['.'] from by simp]
  rw [nonWs_all_false (fun c hcm => by
    rcases List.mem_append.mp hcm with h1 | h2
    · rw [hmem c h1]; rfl
    · simp at h2; rw [h2]; rfl)]
  rw [nonWs_all_false (fun c hcm => by rw [hmem c hcm]; rfl)]
  intro he
  have hlen := congrArg List.length he
  simp at hlen

lemma spGo_ne_nil : ∀ (cs : List Char) (b : Bool), spGo b cs ≠ [] := by
  intro cs
  induction cs with
  | nil => intro b; simp [spGo]
  | cons c rest ih =>
    intro b
    by_cases hp : isSentPunct c = true
    · cases b with
      | true =>
        rw [show spGo true (c :: rest) =
          if isSentPunct c = true then spGo true rest
          else match spGo false rest with
            | [] => [[c]]
            | h :: t => (c :: h) :: t from rfl, if_pos hp]
        exact ih true
      | false =>
        rw [show spGo false (c :: rest) =
          if isSentPunct c = true then [] :: spGo true rest
          else match spGo false rest with
            | [] => [[c]]
            | h :: t => (c :: h) :: t from rfl, if_pos hp]
        simp
    · rw [show spGo b (c :: rest) =
        if isSentPunct c = true then
          (if b then spGo true rest else [] :: spGo true rest)
        else match spGo false rest with
          | [] => [[c]]
          | h :: t => (c :: h) :: t from by cases b <;> rfl]
      rw [if_neg hp]
      cases hsp : spGo false rest <;> simp

lemma spGo_pieces_punctfree :
    ∀ (cs : List Char) (b : Bool) (p : List Char), p ∈ spGo b cs →
      ∀ c ∈ p, isSentPunct c = false := by
  intro cs
  induction cs with
  | nil =>
    intro b p hp c hc
    simp [spGo] at hp
    simp [hp] at hc
  | cons x rest ih =>
    intro b p hp c hc
    by_cases hx : isSentPunct x = true
    · rw [show spGo b (x :: rest) =
        if isSentPunct x = true then
          (if b then spGo true rest else [] :: spGo true rest)
        else match spGo false rest with
          | [] => [[x]]
          | h :: t => (x :: h) :: t from by cases b <;> rfl, if_pos hx] at hp
      cases b with
      | true => exact ih true p hp c hc
      | false =>
        rcases List.mem_cons.mp hp with rfl | hp'
        · simp at hc
        · exact ih true p hp' c hc
    · rw [show spGo b (x :: rest) =
        if isSentPunct x = true then
          (if b then spGo true rest else [] :: spGo true rest)
        else match spGo false rest with
          | [] => [[x]]
          | h :: t => (x :: h) :: t from by cases b <;> rfl, if_neg hx] at hp
      cases hsp : spGo false rest with
      | nil => exact absurd hsp (spGo_ne_nil rest false)
      | cons h t =>
        rw [hsp] at hp
        rcases List.mem_cons.mp hp with rfl | hp'
        · rcases List.mem_cons.mp hc with rfl | hc'
          · simpa using hx
          · exact ih false h (hsp ▸ List.mem_cons_self h t) c hc'
        · exact ih false p (hsp ▸ List.mem_cons_of_mem h hp') c hc

lemma dropWhile_append_one {p : Char → Bool} {x : Char} (hx : p x = false) :
    ∀ s : List Char, (s ++ [x]).dropWhile p = s.dropWhile p ++ [x] := by
  intro s
  induction s with
  | nil =>
    simp only [List.nil_append, List.dropWhile_nil]
    exact List.dropWhile_cons_of_neg (by simp [hx])
  | cons c rest ih =>
    by_cases hc : p c = true
    · rw [List.cons_append, List.dropWhile_cons_of_pos hc,
        List.dropWhile_cons_of_pos hc, ih]
    · rw [List.cons_append, List.dropWhile_cons_of_neg (by simp [hc]),
        List.dropWhile_cons_of_neg (by simp [hc]), List.cons_append]

lemma takeWhile_append_stop {p : Char → Bool} {x : Char} (hx : p x = false) :
    ∀ xs : List Char, (∀ c ∈ xs, p c = true) → (xs ++ [x]).takeWhile p = xs := by
  intro xs
  induction xs with
  | nil =>
    intro _
    simp only [List.nil_append]
    exact List.takeWhile_cons_of_neg (by simp [hx])
  | cons c rest ih =>
    intro h
    rw [List.cons_append,
      List.takeWhile_cons_of_pos (h c (List.mem_cons_self c rest)),
      ih (fun q hq => h q (List.mem_cons_of_mem c hq))]

lemma pyLStrip_cons_nonws {c : Char} {rest : List Char}
    (h : isPySpace c = false) : pyLStrip (c :: rest) = c :: rest := by
  unfold pyLStrip
  exact List.dropWhile_cons_of_neg (by simp [h])

/-- The chunk pushed from a sentence-pass buffer respecting the loop
invariant is within 801 characters, or starts with an over-800 run free of
sentence punctuation (a single over-long sentence kept whole). -/
lemma sentPush_ok {csc : List Char}
    (hinv : csc = [] ∨
      ((∃ ys, csc = ys ++ ['.', ' ']) ∧ csc.length ≤ 802) ∨
      (∃ s, (∀ c ∈ s, isSentPunct c = false) ∧ csc = s ++ ['.', ' '])) :
    (pyStrip csc).length ≤ 801 ∨
      800 < ((pyStrip csc).takeWhile (fun c => !isSentPunct c)).length := by
  rcases hinv with rfl | ⟨⟨ys, rfl⟩, hlen⟩ | ⟨s, hs, rfl⟩
  · left
    rw [show pyStrip [] = [] from rfl]
    simp
  · left
    rw [pyStrip_append_dotspace]
    have h1 : (pyLStrip (ys ++ ['.'])).length ≤ (ys ++ ['.']).length :=
      pyLStrip_length_le _
    simp only [List.length_append, List.length_cons, List.length_nil] at h1 hlen ⊢
    omega
  · by_cases hle : (pyStrip (s ++ ['.', ' '])).length ≤ 801
    · left; exact hle
    · right
      rw [pyStrip_append_dotspace] at hle ⊢
      have key : pyLStrip (s ++ ['.']) = s.dropWhile isPySpace ++ ['.'] := by
        unfold pyLStrip
        exact dropWhile_append_one rfl s
      rw [key] at hle ⊢
      have hsub : ∀ c ∈ s.dropWhile isPySpace, isSentPunct c = false :=
        fun c hc => hs c ((List.dropWhile_sublist isPySpace).subset hc)
      have htw : ((s.dropWhile isPySpace) ++ ['.']).takeWhile
          (fun c => !isSentPunct c) = s.dropWhile isPySpace :=
        takeWhile_append_stop rfl _ (fun c hc => by simp [hsub c hc])
      rw [htw]
      simp only [List.length_append, List.length_cons, List.length_nil] at hle
      omega

lemma sentPass_bound :
    ∀ (sents acc : List (List Char)) (csc : List Char),
      (∀ s ∈ sents, ∀ c ∈ s, isSentPunct c = false) →
      (csc = [] ∨
        ((∃ ys, csc = ys ++ ['.', ' ']) ∧ csc.length ≤ 802) ∨
        (∃ s, (∀ c ∈ s, isSentPunct c = false) ∧ csc = s ++ ['.', ' '])) →
      (∀ ch ∈ acc, ch.length ≤ 801 ∨
        800 < (ch.takeWhile (fun c => !isSentPunct c)).length) →
      ∀ ch ∈ sentPass sents acc csc, ch.length ≤ 801 ∨
        800 < (ch.takeWhile (fun c => !isSentPunct c)).length := by
  intro sents
  induction sents with
  | nil =>
    intro acc csc _ hinv hacc ch hch
    rw [show sentPass [] acc csc =
      if csc = [] then acc else acc ++ [pyStrip csc] from rfl] at hch
    by_cases hc : csc = []
    · rw [if_pos hc] at hch
      exact hacc ch hch
    · rw [if_neg hc] at hch
      rcases List.mem_append.mp hch with h1 | h2
      · exact hacc ch h1
      · simp at h2
        subst h2
        exact sentPush_ok hinv
  | cons s ss ih =>
    intro acc csc hs hinv hacc ch hch
    rw [show sentPass (s :: ss) acc csc =
      if csc.length + s.length ≤ chunkSize then
        sentPass ss acc (csc ++ s ++ ['.', ' '])
      else sentPass ss (if csc = [] then acc else acc ++ [pyStrip csc])
        (s ++ ['.', ' ']) from rfl] at hch
    by_cases hle : csc.length + s.length ≤ chunkSize
    · rw [if_pos hle] at hch
      refine ih acc _ (fun q hq => hs q (List.mem_cons_of_mem _ hq)) ?_ hacc ch hch
      right; left
      refine ⟨⟨csc ++ s, rfl⟩, ?_⟩
      unfold chunkSize at hle
      simp only [List.length_append, List.length_cons, List.length_nil]
      omega
    · rw [if_neg hle] at hch
      refine ih _ _ (fun q hq => hs q (List.mem_cons_of_mem _ hq)) ?_ ?_ ch hch
      · right; right
        exact ⟨s, hs s (List.mem_cons_self s ss), rfl⟩
      · intro q hq
        by_cases hc : csc = []
        · rw [if_pos hc] at hq
          exact hacc q hq
        · rw [if_neg hc] at hq
          rcases List.mem_append.mp hq with h1 | h2
          · exact hacc q h1
          · simp at h2
            subst h2
            exact sentPush_ok hinv

lemma splitLarge_mem :
    ∀ (l : List (List Char)) (ch : List Char), ch ∈ splitLarge l →
      ch.length ≤ 801 ∨ 800 < (ch.takeWhile (fun c => !isSentPunct c)).length := by
  intro l
  induction l with
  | nil =>
    intro ch hch
    simp [splitLarge] at hch
  | cons c rest ih =>
    intro ch hch
    rw [show splitLarge (c :: rest) =
      (if c.length ≤ chunkSize then [c] else sentPass (splitPunct c) [] []) ++
        splitLarge rest from rfl] at hch
    rcases List.mem_append.mp hch with h1 | h2
    · by_cases hle : c.length ≤ chunkSize
      · rw [if_pos hle] at h1
        simp at h1
        subst h1
        left
        unfold chunkSize at hle
        omega
      · rw [if_neg hle] at h1
        refine sentPass_bound (splitPunct c) [] [] ?_ (Or.inl rfl) (by simp) ch h1
        intro sq hsq c' hc'
        exact spGo_pieces_punctfree c false sq hsq c' hc'
    · exact ih ch h2

/-- C1 (amended): every chunk produced by `chunk_text` has length at most
801 (not 800: the sentence pass can leave one trailing period beyond the
limit), except chunks that begin with an over-800-character run free of
sentence punctuation - a single over-long sentence left whole. -/
theorem C1_theorem (text : List Char) (ch : List Char)
    (h : ch ∈ chunkText text) :
    ch.length ≤ 801 ∨ 800 < (ch.takeWhile (fun c => !isSentPunct c)).length :=
  splitLarge_mem _ ch h

/-- C1 witness on the two-character text `"hi"`. -/
theorem C1_witness :
    (("hi").data ∈ chunkText (("hi").data)) ∧
    ((("hi").data).length ≤ 801 ∨
      800 < ((("hi").data).takeWhile (fun c => !isSentPunct c)).length) :=
  ⟨by decide, C1_theorem (("hi").data) (("hi").data) (by decide)⟩

lemma splitLarge_single_big {p : List Char} (h : ¬p.length ≤ chunkSize) :
    splitLarge [p] = sentPass (splitPunct p) [] [] := by
  rw [show splitLarge [p] =
    (if p.length ≤ chunkSize then [p] else sentPass (splitPunct p) [] []) ++
      splitLarge [] from rfl, if_neg h, show splitLarge [] = [] from rfl,
    List.append_nil]

lemma sentPass_cons_fit {s : List Char} {ss acc : List (List Char)}
    {csc : List Char} (h : csc.length + s.length ≤ chunkSize) :
    sentPass (s :: ss) acc csc = sentPass ss acc (csc ++ s ++ ['.', ' ']) := by
  rw [show sentPass (s :: ss) acc csc =
    if csc.length + s.length ≤ chunkSize then
      sentPass ss acc (csc ++ s ++ ['.', ' '])
    else sentPass ss (if csc = [] then acc else acc ++ [pyStrip csc])
      (s ++ ['.', ' ']) from rfl, if_pos h]

lemma sentPass_cons_push {s : List Char} {ss acc : List (List Char)}
    {csc : List Char} (h : ¬csc.length + s.length ≤ chunkSize) (hc : csc ≠ []) :
    sentPass (s :: ss) acc csc =
      sentPass ss (acc ++ [pyStrip csc]) (s ++ ['.', ' ']) := by
  rw [show sentPass (s :: ss) acc csc =
    if csc.length + s.length ≤ chunkSize then
      sentPass ss acc (csc ++ s ++ ['.', ' '])
    else sentPass ss (if csc = [] then acc else acc ++ [pyStrip csc])
      (s ++ ['.', ' ']) from rfl, if_neg h, if_neg hc]

lemma sentPass_nil_push {acc : List (List Char)} {csc : List Char}
    (hc : csc ≠ []) : sentPass [] acc csc = acc ++ [pyStrip csc] := by
  rw [show sentPass [] acc csc =
    if csc = [] then acc else acc ++ [pyStrip csc] from rfl, if_neg hc]

/-- C1 counterexample: on the 1100-character text
`"a." ++ "b"*797 ++ "." ++ "c"*300` the sentence pass emits the chunk
`"a. " ++ "b"*797 ++ "."` of length 801 > 800, which contains two
sentences (its punctuation-free head is just `"a"`), so it is not a single
over-long sentence left whole. -/
theorem C1_counterexample :
    ((['a', '.', ' '] ++ List.replicate 797 'b') ++ ['.']) ∈
      chunkText ('a' :: '.' :: (List.replicate 797 'b' ++ '.' :: List.replicate 300 'c')) ∧
    ((['a', '.', ' '] ++ List.replicate 797 'b') ++ ['.']).length = 801 ∧
    (((['a', '.', ' '] ++ List.replicate 797 'b') ++ ['.']).takeWhile
      (fun c => !isSentPunct c)).length = 1 := by
  have hchars : ∀ c ∈ ('a' :: '.' ::
      (List.replicate 797 'b' ++ '.' :: List.replicate 300 'c')),
      c = 'a' ∨ c = '.' ∨ c = 'b' ∨ c = 'c' := by
    intro c hc
    simp only [List.mem_cons, List.mem_append, List.mem_replicate] at hc
    tauto
  have hsp : splitPunct ('a' :: '.' ::
      (List.replicate 797 'b' ++ '.' :: List.replicate 300 'c')) =
      [['a'], List.replicate 797 'b', List.replicate 300 'c'] := by
    unfold splitPunct
    rw [show ('a' :: '.' ::
      (List.replicate 797 'b' ++ '.' :: List.replicate 300 'c')) =
      ['a'] ++ '.' :: (List.replicate 797 'b' ++ '.' :: List.replicate 300 'c')
      from rfl]
    rw [spGo_false_append_punct (by intro c hc; simp at hc; rw [hc]; rfl)]
    rw [show List.replicate 797 'b' ++ '.' :: List.replicate 300 'c' =
      'b' :: (List.replicate 796 'b' ++ '.' :: List.replicate 300 'c') from rfl]
    rw [spGo_true_cons (show isSentPunct 'b' = false from rfl)]
    rw [show 'b' :: (List.replicate 796 'b' ++ '.' :: List.replicate 300 'c') =
      List.replicate 797 'b' ++ '.' :: List.replicate 300 'c' from rfl]
    rw [spGo_false_append_punct (by
      intro c hc
      rw [List.eq_of_mem_replicate hc]
      rfl)]
    rw [show List.replicate 300 'c' = 'c' :: List.replicate 299 'c' from rfl]
    rw [spGo_true_cons (show isSentPunct 'c' = false from rfl)]
    rw [show ('c' :: List.replicate 299 'c') = List.replicate 300 'c' from rfl]
    rw [spGo_false_all (by
      intro c hc
      rw [List.eq_of_mem_replicate hc]
      rfl)]
  have heval : chunkText ('a' :: '.' ::
      (List.replicate 797 'b' ++ '.' :: List.replicate 300 'c')) =
      [(['a', '.', ' '] ++ List.replicate 797 'b') ++ ['.'],
        List.replicate 300 'c' ++ ['.']] := by
    unfold chunkText
    rw [splitNN_no_nl _ (fun c hc => by
      rcases hchars c hc with rfl | rfl | rfl | rfl <;> decide)]
    rw [paraPass_single, List.nil_append, pyStrip_append_nn,
      pyStrip_all_false (fun c hc => by
        rcases hchars c hc with rfl | rfl | rfl | rfl <;> rfl)]
    rw [splitLarge_single_big (by
      simp [chunkSize, List.length_cons, List.length_append,
        List.length_replicate])]
    rw [hsp]
    rw [sentPass_cons_fit (by decide)]
    rw [List.nil_append]
    rw [sentPass_cons_fit (by
      simp [chunkSize, List.length_append, List.length_replicate])]
    rw [sentPass_cons_push (by
      simp [chunkSize, List.length_append, List.length_replicate]) (by simp)]
    rw [sentPass_nil_push (by simp)]
    rw [pyStrip_append_dotspace, pyStrip_append_dotspace]
    rw [show ((['a'] ++ ['.', ' ']) ++ List.replicate 797 'b') ++ ['.'] =
      'a' :: ((['.', ' '] ++ List.replicate 797 'b') ++ ['.']) from rfl]
    rw [pyLStrip_cons_nonws (show isPySpace 'a' = false from rfl)]
    rw [show List.replicate 300 'c' ++ ['.'] =
      'c' :: (List.replicate 299 'c' ++ ['.']) from rfl]
    rw [pyLStrip_cons_nonws (show isPySpace 'c' = false from rfl)]
    rfl
  refine ⟨?_, by simp [List.length_append, List.length_replicate], by rfl⟩
  rw [heval]
  exact List.mem_cons_self _ _
